import Mathlib

/-!
Verification of the DayZLootEditor edit model (src/editor.rs).

The Rust code is shallowly embedded: the XML reader/writer event streams are
modelled by `XmlEvt` lists (the xml-rs `EventReader` yields a `Result` per
event, modelled by `RdEvt`), `HashMap`s whose only observations are lookups
are modelled by association lists with first-match lookup, `Vec` push/pop
stacks are modelled by lists with the top at the head, and file I/O is
modelled by an abstract `FileSys` record together with a trace of performed
operations.
-/

namespace LootEditor

/-- `FieldKey` from editor.rs (variants `Element` and `Attribute`). -/
inductive FieldKey where
  | element (name : String) (index : Nat)
  | attrib (element : String) (index : Nat) (attr : String)
deriving DecidableEq, Repr

/-- `Field` from editor.rs. -/
structure Field where
  key : FieldKey
  value : String
deriving DecidableEq, Repr

/-- `TypeEntry` from editor.rs. -/
structure TypeEntry where
  name : String
  fields : List Field
deriving DecidableEq, Repr

/-- `FieldKey::set_name`. -/
def FieldKey.set_name : FieldKey → String → FieldKey
  | .element _ i, n => .element n i
  | .attrib el i _, n => .attrib el i n

/-- `FieldKey::get_element_name`. -/
def FieldKey.get_element_name : FieldKey → String
  | .element n _ => n
  | .attrib el _ _ => el

/-- `FieldKey::get_help_text` from editor.rs. -/
def FieldKey.get_help_text : FieldKey → String
  | .element n _ =>
    match n with
    | "nominal" => "The nominal (wanted) amount in the server. Same as max is max is not used."
    | "lifetime" => "The amount of time it takes for the item to despawn when the item is on the ground.\nDoes not come into effect if the item is ruined"
    | "restock" => "How long after one of the same item (despawns or is picked up by the player) is a new one spawned."
    | "min" => "Minimum quantity of items to spawn this applies to the entire map."
    | "quantmin" => "Minimum quantity of the item to spawn in a stack. Eg. Ammunition stack quantity."
    | "quantmax" => "Maximum quantity of the item to spawn in a stack. Eg. Ammunition stack quantity."
    | "cost" => "Loot spawning prioritizer - no one really knows what this does exactly. :D"
    | "category" => "The location class of where this item can spawn."
    | "usage" => "The location class of where this item can spawn."
    | "tag" => "The location class of where this item can spawn."
    | "flags" => ""
    | _ => "Unknown field - open a github issue with the field name."
  | .attrib _ _ a =>
    match a with
    | "count_in_cargo" => "Boolean flag. Sets the total amount that can spawn (map wide) in cargo (tents, boxes, vehicles).\nIf flag is set to 1, item won't spawn if there are already a nominal number of items for this flag."
    | "count_in_hoarder" => "Boolean flag. Sets the total amount that can spawn (map wide) in Zombies.\nIf flag is set to 1, item won't spawn if there are already a nominal number of items for this flag."
    | "count_in_map" => "Boolean flag. Sets the total amount that can spawn on the map.\nIf flag is set to 1, item won't spawn if there are already a nominal number of items for this flag."
    | "count_in_player" => "Boolean flag. Sets the total amount that can spawn (map wide) on players.\nIf flag is set to 1, item won't spawn if there are already a nominal number of items for this flag."
    | "crafted" => "Boolean flag. Sets the total amount based on crafted count (map wide)\nIf flag is set to 1, item won't spawn if there are already a nominal number of items for this flag."
    | "deloot" => "Boolean flag. Sets the total amount (map wide) from dynamic events. E.g Helicopter crashes etc.\nIf flag is set to 1, item won't spawn if there are already a nominal number of items for this flag."
    | "name" => "The location class of where this item can spawn."
    | a' => "Unknown attribute - open a github issue. " ++ a'

/-! ## XML event streams

The xml-rs reader produces a stream of events; `parse_types` pattern-matches
on `StartElement`, `Characters` and `EndElement` and ignores everything else
(whitespace, comments, document markers), modelled by `otherEvt`. -/

/-- One XML event, as seen by `parse_types` / emitted by `serialize_types`. -/
inductive XmlEvt where
  | startElem (name : String) (attrs : List (String × String))
  | characters (text : String)
  | endElem (name : String)
  | otherEvt
deriving DecidableEq, Repr

/-- One item of the reader's iterator: `Result<XmlEvent, xml::reader::Error>`. -/
inductive RdEvt where
  | ok (e : XmlEvt)
  | err (msg : String)
deriving DecidableEq, Repr

/-- Lookup in `element_indices: HashMap<String, usize>` (absent key ↦ the
`or_insert(0)` default 0). -/
def idxLookup : List (String × Nat) → String → Nat
  | [], _ => 0
  | (k, v) :: rest, key => if k = key then v else idxLookup rest key

/-- The combined `entry(el).or_insert(0)` + `*count += 1` update: the stored
value for `el` becomes its previous value plus one. -/
def idxBump (m : List (String × Nat)) (k : String) : List (String × Nat) :=
  (k, idxLookup m k + 1) :: m

/-- The `name` attribute of a `<type>` start tag (`unwrap_or_default`). -/
def nameAttr (attrs : List (String × String)) : String :=
  (((attrs.find? (fun a => a.1 = "name")).map (fun a => a.2)).getD "")

/-- The parser state of `parse_types`: accumulated `types`, the in-progress
`current` entry, the per-type `element_indices` map, and `current_element`. -/
structure PState where
  types : List TypeEntry
  current : Option TypeEntry
  elementIndices : List (String × Nat)
  currentElement : Option (String × Nat)
deriving Repr

def initPState : PState := ⟨[], none, [], none⟩

/-- One iteration of the `for event in parser` loop of `parse_types`. -/
def parseStep (s : PState) : XmlEvt → PState
  | .startElem el attrs =>
    if el = "type" then
      { s with current := some ⟨nameAttr attrs, []⟩, elementIndices := [], currentElement := none }
    else
      let idx := idxLookup s.elementIndices el
      let newFields := attrs.map (fun a => (⟨FieldKey.attrib el idx a.1, a.2⟩ : Field))
      let cur := match s.current with
        | some t => some { t with fields := t.fields ++ newFields }
        | none => none
      { s with current := cur, elementIndices := idxBump s.elementIndices el,
               currentElement := some (el, idx) }
  | .characters text =>
    if text.trim = "" then s
    else
      match s.currentElement, s.current with
      | some (el, idx), some t =>
        { s with current := some { t with fields :=
            t.fields ++ [⟨FieldKey.element el idx, text.trim⟩] } }
      | _, _ => s
  | .endElem el =>
    if el = "type" then
      match s.current with
      | some t => { s with types := s.types ++ [t], current := none,
                           elementIndices := [], currentElement := none }
      | none => { s with current := none, elementIndices := [], currentElement := none }
    else
      { s with currentElement := none }
  | .otherEvt => s

/-- The event loop: the first reader error aborts with `Err` (the `event?`). -/
def parseRun (s : PState) : List RdEvt → Except String PState
  | [] => Except.ok s
  | RdEvt.err m :: _ => Except.error m
  | RdEvt.ok e :: rest => parseRun (parseStep s e) rest

/-- `parse_types` from editor.rs, over the reader's event stream. -/
def parse_types (events : List RdEvt) : Except String (List TypeEntry) :=
  (parseRun initPState events).map PState.types

/-! ## Serialization -/

/-- `ElementData` from editor.rs. -/
structure ElementData where
  eattrs : List (String × String)
  etext : Option String
deriving DecidableEq, Repr

/-- The serializer's group key `(element, index)`. -/
abbrev GKey := String × Nat

/-- `FieldKey` → group key, as computed in the serializer's first pass. -/
def groupKey : FieldKey → GKey
  | .element n i => (n, i)
  | .attrib el i _ => (el, i)

/-- Lookup in `element_map: HashMap<(String, usize), ElementData>`. -/
def emLookup : List (GKey × ElementData) → GKey → Option ElementData
  | [], _ => none
  | (k, v) :: rest, key => if k = key then some v else emLookup rest key

/-- HashMap insert, modelled as a shadowing prepend (only lookups observe it). -/
def emInsert (m : List (GKey × ElementData)) (k : GKey) (v : ElementData) :
    List (GKey × ElementData) :=
  (k, v) :: m

/-- One iteration of the serializer's grouping pass over a type's fields.
The Rust `seen: HashSet` mirrors membership in `order` exactly (a key is
inserted into `seen` iff it is appended to `order`), so `seen` is modelled
by membership in `order`. -/
def groupStep (st : List GKey × List (GKey × ElementData)) (f : Field) :
    List GKey × List (GKey × ElementData) :=
  let k := groupKey f.key
  let order := if k ∈ st.1 then st.1 else st.1 ++ [k]
  let entry := (emLookup st.2 k).getD ⟨[], none⟩
  let entry' := match f.key with
    | .element _ _ => { entry with etext := some f.value }
    | .attrib _ _ a => { entry with eattrs := entry.eattrs ++ [(a, f.value)] }
  (order, emInsert st.2 k entry')

/-- Writer events for one group in the serializer's emission pass. -/
def groupEmit (em : List (GKey × ElementData)) (k : GKey) : List XmlEvt :=
  match emLookup em k with
  | some data =>
    [XmlEvt.startElem k.1 data.eattrs] ++
      (match data.etext with
       | some t => [XmlEvt.characters t]
       | none => []) ++ [XmlEvt.endElem k.1]
  | none => []

/-- Writer events for one `<type>` element. -/
def typeEvents (t : TypeEntry) : List XmlEvt :=
  let st := t.fields.foldl groupStep ([], [])
  [XmlEvt.startElem "type" [("name", t.name)]] ++
    st.1.flatMap (groupEmit st.2) ++ [XmlEvt.endElem "type"]

/-- `serialize_types` from editor.rs, as the stream of writer events (the
emitter's indentation is formatting between tags: it reaches a re-parse only
as ignorable whitespace, which `parse_types` drops). -/
def serialize_types (types : List TypeEntry) : List XmlEvt :=
  [XmlEvt.startElem "types" []] ++ types.flatMap typeEvents ++ [XmlEvt.endElem "types"]

/-! ## Conforming inputs

A conforming input (§6.1 of the spec) is the event stream of a flat
`<types>` document: a list of `<type name="...">` elements, each containing
a flat list of child elements that carry attributes and/or one text node.
`wfChild` states the conformance side conditions: children are not named
`type`, text is non-empty and trimmed (the reader delivers surrounding
indentation separately), attribute names within one tag are distinct, and
every child carries some datum (the §6.1 schema has no fully empty child). -/

structure SrcChild where
  el : String
  attrs : List (String × String)
  text : Option String
deriving DecidableEq, Repr

structure SrcType where
  name : String
  children : List SrcChild
deriving DecidableEq, Repr

def childEvents (c : SrcChild) : List XmlEvt :=
  [XmlEvt.startElem c.el c.attrs] ++
    (match c.text with
     | some t => [XmlEvt.characters t]
     | none => []) ++
    [XmlEvt.endElem c.el]

def typeEventsSrc (ty : SrcType) : List XmlEvt :=
  [XmlEvt.startElem "type" [("name", ty.name)]] ++ ty.children.flatMap childEvents ++
    [XmlEvt.endElem "type"]

/-- The event stream of a conforming document. -/
def eventsOf (d : List SrcType) : List XmlEvt :=
  [XmlEvt.startElem "types" []] ++ d.flatMap typeEventsSrc ++ [XmlEvt.endElem "types"]

/-- The fields the parser extracts from one child occurring with index `idx`:
its attributes in order, then its text (if any). -/
def childFields (c : SrcChild) (idx : Nat) : List Field :=
  c.attrs.map (fun a => (⟨FieldKey.attrib c.el idx a.1, a.2⟩ : Field)) ++
    (match c.text with
     | some t => [⟨FieldKey.element c.el idx, t⟩]
     | none => [])

def fieldsOfChildren : List SrcChild → List (String × Nat) → List Field
  | [], _ => []
  | c :: cs, m => childFields c (idxLookup m c.el) ++ fieldsOfChildren cs (idxBump m c.el)

/-- The Document that parsing a conforming input produces. -/
def docOf (d : List SrcType) : List TypeEntry :=
  d.map (fun ty => ⟨ty.name, fieldsOfChildren ty.children []⟩)

def textOk : Option String → Prop
  | some t => t.trim = t ∧ t ≠ ""
  | none => True

instance : (o : Option String) → Decidable (textOk o)
  | some _ => inferInstanceAs (Decidable (_ ∧ _))
  | none => inferInstanceAs (Decidable True)

def wfChild (c : SrcChild) : Prop :=
  c.el ≠ "type" ∧ textOk c.text ∧ (c.attrs.map Prod.fst).Nodup ∧
    (c.attrs ≠ [] ∨ c.text ≠ none)

instance (c : SrcChild) : Decidable (wfChild c) := by
  unfold wfChild; infer_instance

def wfDoc (d : List SrcType) : Prop := ∀ ty ∈ d, ∀ c ∈ ty.children, wfChild c

instance (d : List SrcType) : Decidable (wfDoc d) := by
  unfold wfDoc; infer_instance

/-! ## Parsing a conforming input -/

theorem nameAttr_single (nm : String) : nameAttr [("name", nm)] = nm := by
  simp [nameAttr, List.find?]

theorem foldl_childEvents (c : SrcChild) (hel : c.el ≠ "type") (htext : textOk c.text)
    (acc : List TypeEntry) (nm : String) (fs : List Field) (m : List (String × Nat))
    (ce : Option (String × Nat)) :
    (childEvents c).foldl parseStep ⟨acc, some ⟨nm, fs⟩, m, ce⟩ =
      ⟨acc, some ⟨nm, fs ++ childFields c (idxLookup m c.el)⟩, idxBump m c.el, none⟩ := by
  cases htc : c.text with
  | none =>
    simp [childEvents, htc, parseStep, hel, childFields]
  | some t =>
    rw [htc] at htext
    simp [childEvents, htc, parseStep, hel, childFields, htext.1, htext.2]

theorem foldl_children (cs : List SrcChild) (hc : ∀ c ∈ cs, wfChild c)
    (acc : List TypeEntry) (nm : String) :
    ∀ (fs : List Field) (m : List (String × Nat)) (ce : Option (String × Nat)),
      ∃ m' ce',
        (cs.flatMap childEvents).foldl parseStep ⟨acc, some ⟨nm, fs⟩, m, ce⟩ =
          ⟨acc, some ⟨nm, fs ++ fieldsOfChildren cs m⟩, m', ce'⟩ := by
  induction cs with
  | nil =>
    intro fs m ce
    exact ⟨m, ce, by simp [fieldsOfChildren]⟩
  | cons c cs ih =>
    intro fs m ce
    have hcw := hc c (by simp)
    rw [List.flatMap_cons, List.foldl_append,
      foldl_childEvents c hcw.1 hcw.2.1 acc nm fs m ce]
    obtain ⟨m', ce', h⟩ := ih (fun c' hc' => hc c' (List.mem_cons_of_mem _ hc'))
      (fs ++ childFields c (idxLookup m c.el)) (idxBump m c.el) none
    refine ⟨m', ce', ?_⟩
    rw [h]
    simp [fieldsOfChildren]

theorem foldl_typeEvents (ty : SrcType) (hc : ∀ c ∈ ty.children, wfChild c)
    (acc : List TypeEntry) (cur : Option TypeEntry) (m : List (String × Nat))
    (ce : Option (String × Nat)) :
    (typeEventsSrc ty).foldl parseStep ⟨acc, cur, m, ce⟩ =
      ⟨acc ++ [⟨ty.name, fieldsOfChildren ty.children []⟩], none, [], none⟩ := by
  unfold typeEventsSrc
  rw [List.foldl_append, List.foldl_append]
  have h1 : ([XmlEvt.startElem "type" [("name", ty.name)]]).foldl parseStep ⟨acc, cur, m, ce⟩ =
      ⟨acc, some ⟨ty.name, []⟩, [], none⟩ := by
    simp [parseStep, nameAttr_single]
  rw [h1]
  obtain ⟨m', ce', h2⟩ := foldl_children ty.children hc acc ty.name [] [] none
  rw [h2]
  simp [parseStep]

theorem foldl_docEvents (d : List SrcType) (h : wfDoc d) :
    ∀ (acc : List TypeEntry) (m : List (String × Nat)) (ce : Option (String × Nat)),
      ∃ m' ce',
        (d.flatMap typeEventsSrc).foldl parseStep ⟨acc, none, m, ce⟩ =
          ⟨acc ++ docOf d, none, m', ce'⟩ := by
  induction d with
  | nil =>
    intro acc m ce
    exact ⟨m, ce, by simp [docOf]⟩
  | cons ty d ih =>
    intro acc m ce
    rw [List.flatMap_cons, List.foldl_append,
      foldl_typeEvents ty (h ty (by simp)) acc none m ce]
    obtain ⟨m', ce', h2⟩ := ih (fun ty' ht' => h ty' (List.mem_cons_of_mem _ ht'))
      (acc ++ [⟨ty.name, fieldsOfChildren ty.children []⟩]) [] none
    refine ⟨m', ce', ?_⟩
    rw [h2]
    simp [docOf]

theorem parseRun_map_ok (evs : List XmlEvt) :
    ∀ s, parseRun s (evs.map RdEvt.ok) = Except.ok (evs.foldl parseStep s) := by
  induction evs with
  | nil => intro s; rfl
  | cons e evs ih => intro s; simp [parseRun, List.foldl_cons, ih]

/-- Parsing the event stream of a conforming document yields `docOf`. -/
theorem parse_eventsOf (d : List SrcType) (h : wfDoc d) :
    parse_types ((eventsOf d).map RdEvt.ok) = Except.ok (docOf d) := by
  unfold parse_types eventsOf
  rw [parseRun_map_ok]
  rw [List.foldl_append, List.foldl_append]
  have h1 : ([XmlEvt.startElem "types" []]).foldl parseStep initPState =
      ⟨[], none, idxBump [] "types", some ("types", 0)⟩ := by
    simp [parseStep, initPState, idxLookup]
  rw [h1]
  obtain ⟨m', ce', h2⟩ := foldl_docEvents d h [] (idxBump [] "types") (some ("types", 0))
  rw [h2]
  simp [parseStep, Except.map]

/-! ## Serializing the parsed document of a conforming input -/

/-- The group keys of a type's children, in child order. -/
def keysOf : List SrcChild → List (String × Nat) → List GKey
  | [], _ => []
  | c :: cs, m => (c.el, idxLookup m c.el) :: keysOf cs (idxBump m c.el)

theorem idxLookup_idxBump (m : List (String × Nat)) (k k' : String) :
    idxLookup (idxBump m k) k' = if k = k' then idxLookup m k + 1 else idxLookup m k' := by
  simp [idxBump, idxLookup]

theorem keysOf_lower (cs : List SrcChild) :
    ∀ (m : List (String × Nat)) (el : String) (j : Nat),
      (el, j) ∈ keysOf cs m → idxLookup m el ≤ j := by
  induction cs with
  | nil => intro m el j h; simp [keysOf] at h
  | cons c cs ih =>
    intro m el j h
    rw [keysOf, List.mem_cons] at h
    rcases h with h | h
    · obtain ⟨h1, h2⟩ := Prod.mk.injEq _ _ _ _ ▸ h
      subst h1; omega
    · have h2 := ih (idxBump m c.el) el j h
      rw [idxLookup_idxBump] at h2
      by_cases he : c.el = el
      · subst he; rw [if_pos rfl] at h2; omega
      · rw [if_neg he] at h2; omega

theorem keysOf_nodup (cs : List SrcChild) : ∀ m, (keysOf cs m).Nodup := by
  induction cs with
  | nil => intro m; simp [keysOf]
  | cons c cs ih =>
    intro m
    rw [keysOf]
    refine List.nodup_cons.mpr ⟨?_, ih _⟩
    intro hmem
    have := keysOf_lower cs (idxBump m c.el) c.el _ hmem
    rw [idxLookup_idxBump] at this
    simp at this

theorem emLookup_emInsert_self (m : List (GKey × ElementData)) (k : GKey) (v : ElementData) :
    emLookup (emInsert m k v) k = some v := by
  simp [emInsert, emLookup]

theorem emLookup_emInsert_ne (m : List (GKey × ElementData)) (k k' : GKey) (v : ElementData)
    (h : k ≠ k') : emLookup (emInsert m k v) k' = emLookup m k' := by
  simp [emInsert, emLookup, h]

theorem foldl_groupStep_attrs (el : String) (idx : Nat) (as : List (String × String)) :
    ∀ (order : List GKey) (em : List (GKey × ElementData)) (d : ElementData),
      (el, idx) ∈ order → emLookup em (el, idx) = some d →
      ∃ em₂,
        (as.map (fun a => (⟨FieldKey.attrib el idx a.1, a.2⟩ : Field))).foldl groupStep
            (order, em) = (order, em₂) ∧
        emLookup em₂ (el, idx) = some ⟨d.eattrs ++ as, d.etext⟩ ∧
        ∀ k', k' ≠ (el, idx) → emLookup em₂ k' = emLookup em k' := by
  induction as with
  | nil =>
    intro order em d h1 h2
    exact ⟨em, by simp, by simpa using h2, fun k' _ => rfl⟩
  | cons a as ih =>
    intro order em d h1 h2
    have hstep : groupStep (order, em) ⟨FieldKey.attrib el idx a.1, a.2⟩ =
        (order, emInsert em (el, idx) ⟨d.eattrs ++ [(a.1, a.2)], d.etext⟩) := by
      simp [groupStep, groupKey, h1, h2]
    rw [List.map_cons, List.foldl_cons, hstep]
    obtain ⟨em₂, hf, hl, hp⟩ := ih order (emInsert em (el, idx) ⟨d.eattrs ++ [(a.1, a.2)], d.etext⟩)
      ⟨d.eattrs ++ [(a.1, a.2)], d.etext⟩ h1 (emLookup_emInsert_self _ _ _)
    refine ⟨em₂, hf, by simpa using hl, fun k' hk' => ?_⟩
    rw [hp k' hk', emLookup_emInsert_ne _ _ _ _ (fun hne => hk' hne.symm)]

theorem foldl_groupStep_child (c : SrcChild) (idx : Nat)
    (hne : c.attrs ≠ [] ∨ c.text ≠ none) :
    ∀ (order : List GKey) (em : List (GKey × ElementData)),
      (c.el, idx) ∉ order → emLookup em (c.el, idx) = none →
      ∃ em₂,
        (childFields c idx).foldl groupStep (order, em) = (order ++ [(c.el, idx)], em₂) ∧
        emLookup em₂ (c.el, idx) = some ⟨c.attrs, c.text⟩ ∧
        ∀ k', k' ≠ (c.el, idx) → emLookup em₂ k' = emLookup em k' := by
  obtain ⟨el, attrs, text⟩ := c
  dsimp only at hne ⊢
  intro order em h1 h2
  cases attrs with
  | nil =>
    cases text with
    | none => simp at hne
    | some t =>
      refine ⟨emInsert em (el, idx) ⟨[], some t⟩, ?_, emLookup_emInsert_self _ _ _, ?_⟩
      · simp [childFields, groupStep, groupKey, h1, h2]
      · intro k' hk'
        exact emLookup_emInsert_ne _ _ _ _ (fun hne' => hk' hne'.symm)
  | cons a as =>
    have hstep : groupStep (order, em) ⟨FieldKey.attrib el idx a.1, a.2⟩ =
        (order ++ [(el, idx)], emInsert em (el, idx) ⟨[(a.1, a.2)], none⟩) := by
      simp [groupStep, groupKey, h1, h2]
    obtain ⟨em₂, hf, hl, hp⟩ := foldl_groupStep_attrs el idx as (order ++ [(el, idx)])
      (emInsert em (el, idx) ⟨[(a.1, a.2)], none⟩) ⟨[(a.1, a.2)], none⟩ (by simp)
      (emLookup_emInsert_self _ _ _)
    have hl1 : emLookup em₂ (el, idx) = some ⟨a :: as, none⟩ := by
      rw [hl]; simp
    have hp1 : ∀ k', k' ≠ (el, idx) → emLookup em₂ k' = emLookup em k' := by
      intro k' hk'
      rw [hp k' hk', emLookup_emInsert_ne _ _ _ _ (fun hne' => hk' hne'.symm)]
    cases text with
    | none =>
      refine ⟨em₂, ?_, hl1, hp1⟩
      simp only [childFields, List.map_cons, List.append_nil, List.foldl_cons]
      rw [hstep, hf]
    | some t =>
      refine ⟨emInsert em₂ (el, idx) ⟨a :: as, some t⟩, ?_,
        emLookup_emInsert_self _ _ _, ?_⟩
      · simp only [childFields, List.map_cons, List.cons_append, List.foldl_cons]
        rw [hstep, List.foldl_append, hf]
        simp [groupStep, groupKey, hl1]
      · intro k' hk'
        rw [emLookup_emInsert_ne _ _ _ _ (fun hne' => hk' hne'.symm), hp1 k' hk']

theorem groupEmit_eq_childEvents (c : SrcChild) (idx : Nat)
    (em : List (GKey × ElementData)) (h : emLookup em (c.el, idx) = some ⟨c.attrs, c.text⟩) :
    groupEmit em (c.el, idx) = childEvents c := by
  cases htext : c.text with
  | none => rw [htext] at h; simp [groupEmit, childEvents, h, htext]
  | some t => rw [htext] at h; simp [groupEmit, childEvents, h, htext]

theorem foldl_groupStep_children (cs : List SrcChild) (hwf : ∀ c ∈ cs, wfChild c) :
    ∀ (m : List (String × Nat)) (order : List GKey) (em : List (GKey × ElementData)),
      (∀ k ∈ keysOf cs m, k ∉ order ∧ emLookup em k = none) →
      ∃ em₂,
        (fieldsOfChildren cs m).foldl groupStep (order, em) = (order ++ keysOf cs m, em₂) ∧
        (keysOf cs m).flatMap (groupEmit em₂) = cs.flatMap childEvents ∧
        ∀ k', k' ∉ keysOf cs m → emLookup em₂ k' = emLookup em k' := by
  induction cs with
  | nil =>
    intro m order em _
    exact ⟨em, by simp [fieldsOfChildren, keysOf], by simp [keysOf], fun k' _ => rfl⟩
  | cons c cs ih =>
    intro m order em h
    have hc := hwf c (by simp)
    have hfresh := h (c.el, idxLookup m c.el) (by rw [keysOf]; exact List.mem_cons_self _ _)
    obtain ⟨em₁, hf1, hl1, hp1⟩ := foldl_groupStep_child c (idxLookup m c.el) hc.2.2.2
      order em hfresh.1 hfresh.2
    rw [fieldsOfChildren, List.foldl_append, hf1]
    have hnodup := keysOf_nodup (c :: cs) m
    rw [keysOf] at hnodup
    have hknotin : (c.el, idxLookup m c.el) ∉ keysOf cs (idxBump m c.el) :=
      (List.nodup_cons.mp hnodup).1
    have hfresh2 : ∀ k'' ∈ keysOf cs (idxBump m c.el),
        k'' ∉ order ++ [(c.el, idxLookup m c.el)] ∧ emLookup em₁ k'' = none := by
      intro k'' hk''
      have hne : k'' ≠ (c.el, idxLookup m c.el) := fun heq => hknotin (heq ▸ hk'')
      have hmem := h k'' (by rw [keysOf]; exact List.mem_cons_of_mem _ hk'')
      refine ⟨?_, ?_⟩
      · simp only [List.mem_append, List.mem_singleton]
        rintro (hin | hin)
        · exact hmem.1 hin
        · exact hne hin
      · rw [hp1 k'' hne]; exact hmem.2
    obtain ⟨em₂, hf2, he2, hp2⟩ := ih (fun c' hc' => hwf c' (List.mem_cons_of_mem _ hc'))
      (idxBump m c.el) (order ++ [(c.el, idxLookup m c.el)]) em₁ hfresh2
    refine ⟨em₂, ?_, ?_, ?_⟩
    · rw [hf2, keysOf]; simp
    · rw [keysOf, List.flatMap_cons]
      have hl2 : emLookup em₂ (c.el, idxLookup m c.el) = some ⟨c.attrs, c.text⟩ := by
        rw [hp2 _ hknotin, hl1]
      rw [groupEmit_eq_childEvents c _ em₂ hl2, he2, List.flatMap_cons]
    · intro k' hk'
      rw [keysOf, List.mem_cons] at hk'
      push_neg at hk'
      rw [hp2 k' hk'.2, hp1 k' hk'.1]

theorem typeEvents_docOf (ty : SrcType) (hwf : ∀ c ∈ ty.children, wfChild c) :
    typeEvents ⟨ty.name, fieldsOfChildren ty.children []⟩ = typeEventsSrc ty := by
  obtain ⟨em₂, hf, he, _⟩ := foldl_groupStep_children ty.children hwf [] [] []
    (fun k _ => ⟨by simp, rfl⟩)
  unfold typeEvents typeEventsSrc
  rw [hf]
  simp [he]

/-- Serializing the parse of a conforming input reproduces its event stream. -/
theorem serialize_docOf (d : List SrcType) (h : wfDoc d) :
    serialize_types (docOf d) = eventsOf d := by
  unfold serialize_types eventsOf docOf
  have : (d.map (fun ty => (⟨ty.name, fieldsOfChildren ty.children []⟩ : TypeEntry))).flatMap
      typeEvents = d.flatMap typeEventsSrc := by
    induction d with
    | nil => rfl
    | cons ty d ih =>
      rw [List.map_cons, List.flatMap_cons, List.flatMap_cons,
        typeEvents_docOf ty (h ty (by simp)), ih (fun ty' ht' c hc =>
          h ty' (List.mem_cons_of_mem _ ht') c hc)]
  rw [this]

/-- C1: for every document obtained by parsing a conforming input with
`parse_types`, applying `serialize_types` and then `parse_types` again yields
a Document equal to the first (same type order; within each type the same
first-seen `(element, index)` group order, text, and attribute pairs). -/
theorem c1_round_trip (d : List SrcType) (hconf : wfDoc d) (D : List TypeEntry)
    (hparse : parse_types ((eventsOf d).map RdEvt.ok) = Except.ok D) :
    parse_types ((serialize_types D).map RdEvt.ok) = Except.ok D := by
  have hD : docOf d = D := by
    rw [parse_eventsOf d hconf] at hparse
    exact Except.ok.inj hparse
  rw [← hD, serialize_docOf d hconf, parse_eventsOf d hconf]

/-- Concrete witness input for C1: a two-type conforming document (attribute
children, including a repeated `usage` element). -/
def c1ExampleDoc : List SrcType :=
  [⟨"Foo", [⟨"flags", [("count_in_cargo", "0"), ("count_in_map", "1")], none⟩,
            ⟨"usage", [("name", "Town")], none⟩,
            ⟨"usage", [("name", "Village")], none⟩]⟩,
   ⟨"Bar", [⟨"category", [("name", "tools")], none⟩]⟩]

theorem c1_round_trip_witness :
    parse_types ((serialize_types (docOf c1ExampleDoc)).map RdEvt.ok) =
      Except.ok (docOf c1ExampleDoc) :=
  c1_round_trip c1ExampleDoc (by decide) (docOf c1ExampleDoc) (by rfl)

/-! ## The editor state machine

Direct port of `Editor` from editor.rs. `BTreeSet<usize>` is modelled as an
ascending sorted list (its iteration order); `Vec` stacks have their top at
the list head; `PathBuf` is a `String`; the SSH/local file backends are an
abstract `FileSys` record plus an `FsOp` trace of attempted operations. -/

inductive EditorFocus where
  | TypeList
  | FieldList
  | Editing
deriving DecidableEq, Repr

inductive EditTarget where
  | TypeName
  | FieldName
  | FieldValue
deriving DecidableEq, Repr

/-- `PendingAddKind` (variants `Field` and `Attribute`). -/
inductive PendingAddKind where
  | fieldAdd
  | attrAdd (element : String) (index : Nat)
deriving DecidableEq, Repr

structure PendingAdd where
  kind : PendingAddKind
  name : Option String
deriving DecidableEq, Repr

/-- `FileSource` (the remote SSH client handle itself carries no document
state observed by the editor). -/
inductive FileSource where
  | localFs
  | remote
deriving DecidableEq, Repr

structure FileSelection where
  path : String
  source : FileSource
deriving DecidableEq, Repr

structure EditorSnapshot where
  types : List TypeEntry
  selected_type : Nat
  selected_field : Nat
  multi_select : Bool
  selected_types : List Nat
  focus : EditorFocus
deriving DecidableEq, Repr

structure Editor where
  path : Option String
  source : FileSource
  types : List TypeEntry
  selected_type : Nat
  selected_field : Nat
  multi_select : Bool
  selected_types : List Nat
  undo_stack : List EditorSnapshot
  redo_stack : List EditorSnapshot
  focus : EditorFocus
  editing_target : Option EditTarget
  pending_add : Option PendingAdd
  input_buffer : String
  status : String
deriving DecidableEq, Repr

/-- `Editor::new`. -/
def Editor.new : Editor :=
  ⟨none, FileSource.localFs, [], 0, 0, false, [], [], [], EditorFocus.TypeList,
    none, none, "", "Load a file to begin"⟩

/-- Sorted-insert for the `BTreeSet` model (no-op when present). -/
def setInsert (x : Nat) : List Nat → List Nat
  | [] => [x]
  | y :: ys => if x < y then x :: y :: ys else if x = y then y :: ys else y :: setInsert x ys

def setRemove (x : Nat) (s : List Nat) : List Nat := s.filter (fun y => y != x)

def current_fields (e : Editor) : List Field :=
  ((e.types[e.selected_type]?).map TypeEntry.fields).getD []

def current_fields_len (e : Editor) : Nat :=
  ((e.types[e.selected_type]?).map (fun t => t.fields.length)).getD 0

def current_field (e : Editor) : Option Field :=
  (e.types[e.selected_type]?).bind (fun t => t.fields[e.selected_field]?)

/-- `Editor::snapshot` replaces an `Editing` focus by `FieldList`. -/
def snapshotFocus : EditorFocus → EditorFocus
  | EditorFocus.Editing => EditorFocus.FieldList
  | f => f

def snapshot (e : Editor) : EditorSnapshot :=
  ⟨e.types, e.selected_type, e.selected_field, e.multi_select, e.selected_types,
    snapshotFocus e.focus⟩

def restore_snapshot (e : Editor) (s : EditorSnapshot) : Editor :=
  { e with types := s.types, selected_type := s.selected_type,
           selected_field := s.selected_field, multi_select := s.multi_select,
           selected_types := s.selected_types, focus := s.focus,
           editing_target := none, pending_add := none, input_buffer := "" }

def push_undo (e : Editor) : Editor :=
  { e with undo_stack := snapshot e :: e.undo_stack, redo_stack := [] }

def undo (e : Editor) : Editor :=
  match e.undo_stack with
  | [] => { e with status := "Nothing to undo" }
  | previous :: rest =>
    let e1 := restore_snapshot e previous
    { e1 with undo_stack := rest, redo_stack := snapshot e :: e.redo_stack,
              status := "Undid change" }

def redo (e : Editor) : Editor :=
  match e.redo_stack with
  | [] => { e with status := "Nothing to redo" }
  | next :: rest =>
    let e1 := restore_snapshot e next
    { e1 with undo_stack := snapshot e :: e.undo_stack, redo_stack := rest,
              status := "Redid change" }

/-- `calculate_move_idx` (isize arithmetic as `Int`; the `(arr_len - 1) as
usize` cast is exact because every caller guarantees `arr_len ≥ 1`). -/
def calculate_move_idx (selected : Nat) (new_idx : Int) (arr_len : Int) : Int :=
  if (selected : Int) = arr_len - 1 ∧ new_idx ≥ arr_len then 0
  else if selected = 0 ∧ new_idx < 0 then arr_len - 1
  else if new_idx < 0 then 0
  else if new_idx ≥ arr_len then arr_len - 1
  else new_idx

def move_selection (delta : Int) (e : Editor) : Editor :=
  match e.focus with
  | EditorFocus.TypeList =>
    if e.types = [] then e
    else
      let len : Int := e.types.length
      let new_idx := calculate_move_idx e.selected_type ((e.selected_type : Int) + delta) len
      { e with selected_type := new_idx.toNat, selected_field := 0 }
  | EditorFocus.FieldList =>
    let len : Int := current_fields_len e
    if len = 0 then e
    else
      let new_idx := calculate_move_idx e.selected_field ((e.selected_field : Int) + delta) len
      { e with selected_field := new_idx.toNat }
  | EditorFocus.Editing => e

def begin_editing (e : Editor) : Editor :=
  match e.focus with
  | EditorFocus.TypeList =>
    match e.types[e.selected_type]? with
    | some ty =>
      { e with input_buffer := ty.name, editing_target := some EditTarget.TypeName,
               focus := EditorFocus.Editing, status := "Editing type name" }
    | none => e
  | EditorFocus.FieldList =>
    match current_field e with
    | some field =>
      { e with input_buffer := field.value, editing_target := some EditTarget.FieldValue,
               focus := EditorFocus.Editing, status := "Editing field value" }
    | none => e
  | EditorFocus.Editing => e

def stop_editing (e : Editor) : Editor :=
  let f := match e.editing_target with
    | some EditTarget.TypeName => EditorFocus.TypeList
    | some EditTarget.FieldName => EditorFocus.FieldList
    | some EditTarget.FieldValue => EditorFocus.FieldList
    | none => e.focus
  { e with focus := f, editing_target := none, pending_add := none, input_buffer := "" }

/-- `types.get_mut(i)` followed by an update (no-op when out of range). -/
def updateType (ts : List TypeEntry) (i : Nat) (f : TypeEntry → TypeEntry) :
    List TypeEntry :=
  match ts[i]? with
  | some t => ts.set i (f t)
  | none => ts

/-- `current_field_mut` followed by an update (no-op when out of range). -/
def setFieldAt (ts : List TypeEntry) (st sf : Nat) (g : Field → Field) : List TypeEntry :=
  match ts[st]? with
  | some t =>
    match t.fields[sf]? with
    | some f => ts.set st { t with fields := t.fields.set sf (g f) }
    | none => ts
  | none => ts

/-- Count of Element-keyed fields named `nm` (the `filter ... count` idiom). -/
def countElem (fields : List Field) (nm : String) : Nat :=
  (fields.filter (fun f => match f.key with
    | FieldKey.element n _ => n == nm
    | FieldKey.attrib _ _ _ => false)).length

def selected_type_indices (e : Editor) : List Nat :=
  if e.multi_select then e.selected_types
  else if e.types = [] then []
  else [e.selected_type]

def pendingLabel : PendingAddKind → String
  | PendingAddKind.fieldAdd => "field"
  | PendingAddKind.attrAdd _ _ => "attribute"

/-- The `for idx in indices` loop of `apply_pending_add` (state: the types
list, `selected_field`, and the `updated` counter). -/
def addLoop (kind : PendingAddKind) (name value : String) (selT : Nat) :
    List Nat → List TypeEntry → Nat → Nat → List TypeEntry × Nat × Nat
  | [], ts, sf, upd => (ts, sf, upd)
  | idx :: rest, ts, sf, upd =>
    match ts[idx]? with
    | some ty =>
      let field := match kind with
        | PendingAddKind.fieldAdd =>
          (⟨FieldKey.element name (countElem ty.fields name), value⟩ : Field)
        | PendingAddKind.attrAdd element index =>
          (⟨FieldKey.attrib element index name, value⟩ : Field)
      let newFields := ty.fields ++ [field]
      let ts' := ts.set idx { ty with fields := newFields }
      let sf' := if idx = selT then newFields.length - 1 else sf
      addLoop kind name value selT rest ts' sf' (upd + 1)
    | none => addLoop kind name value selT rest ts sf upd

def apply_pending_add (e : Editor) : Editor × Bool :=
  let value := e.input_buffer
  match e.pending_add with
  | none => (e, false)
  | some pending =>
    match e.editing_target with
    | some EditTarget.FieldName =>
      ({ e with pending_add := some ⟨pending.kind, some value⟩,
                input_buffer := "",
                editing_target := some EditTarget.FieldValue,
                status := "Enter a value for the new " ++ pendingLabel pending.kind },
       true)
    | some EditTarget.FieldValue =>
      let name := pending.name.getD "new_field"
      let indices := selected_type_indices e
      if indices = [] then
        ({ e with status := "No types selected" }, false)
      else
        let e1 := push_undo e
        let r := addLoop pending.kind name value e1.selected_type indices e1.types
          e1.selected_field 0
        ({ e1 with types := r.1, selected_field := r.2.1, pending_add := none,
                   status := "Added " ++ pendingLabel pending.kind ++ " to " ++
                     toString r.2.2 ++ " types" },
         false)
    | _ => (e, false)

def apply_input (e : Editor) : Editor × Bool :=
  if e.pending_add.isSome then apply_pending_add e
  else
    let value := e.input_buffer
    match e.editing_target with
    | some EditTarget.TypeName =>
      if e.selected_type < e.types.length then
        let e1 := push_undo e
        let ts := updateType e1.types e1.selected_type (fun ty => { ty with name := value })
        ({ e1 with types := ts, status := "Type renamed" }, false)
      else (e, false)
    | some EditTarget.FieldName =>
      match current_field e with
      | some _ =>
        let e1 := push_undo e
        let ts := setFieldAt e1.types e1.selected_type e1.selected_field
          (fun f => { f with key := f.key.set_name value })
        let e2 := { e1 with types := ts }
        match current_field e2 with
        | some field =>
          ({ e2 with input_buffer := field.value,
                     editing_target := some EditTarget.FieldValue,
                     status := "Field renamed; edit value" }, true)
        | none => ({ e2 with status := "Field renamed" }, false)
      | none => (e, false)
    | some EditTarget.FieldValue =>
      match current_field e with
      | some _ =>
        let e1 := push_undo e
        let ts := setFieldAt e1.types e1.selected_type e1.selected_field
          (fun f => { f with value := value })
        ({ e1 with types := ts, status := "Value updated" }, false)
      | none => (e, false)
    | none => (e, false)

/-- `default_fields` from editor.rs. -/
def default_fields : List Field :=
  [⟨FieldKey.element "nominal" 0, ""⟩,
   ⟨FieldKey.element "lifetime" 0, ""⟩,
   ⟨FieldKey.element "restock" 0, ""⟩,
   ⟨FieldKey.element "min" 0, ""⟩,
   ⟨FieldKey.element "quantmin" 0, ""⟩,
   ⟨FieldKey.element "quantmax" 0, ""⟩,
   ⟨FieldKey.element "cost" 0, ""⟩,
   ⟨FieldKey.attrib "flags" 0 "count_in_cargo", "0"⟩,
   ⟨FieldKey.attrib "flags" 0 "count_in_hoarder", "0"⟩,
   ⟨FieldKey.attrib "flags" 0 "count_in_map", "1"⟩,
   ⟨FieldKey.attrib "flags" 0 "count_in_player", "0"⟩,
   ⟨FieldKey.attrib "flags" 0 "crafted", "0"⟩,
   ⟨FieldKey.attrib "flags" 0 "deloot", "0"⟩,
   ⟨FieldKey.attrib "category" 0 "name", ""⟩]

def begin_multi_add_field (e : Editor) : Editor :=
  if e.types = [] then e
  else if selected_type_indices e = [] then { e with status := "No types selected" }
  else
    { e with pending_add := some ⟨PendingAddKind.fieldAdd, none⟩,
             focus := EditorFocus.Editing,
             editing_target := some EditTarget.FieldName,
             input_buffer := "new_field",
             status := "Enter a name for the new field" }

def begin_multi_add_attribute (e : Editor) : Editor :=
  if e.types = [] then e
  else if selected_type_indices e = [] then { e with status := "No types selected" }
  else
    match current_field e with
    | none => e
    | some base_field =>
      let element := base_field.key.get_element_name
      let index := match base_field.key with
        | FieldKey.element _ i => i
        | FieldKey.attrib _ i _ => i
      { e with pending_add := some ⟨PendingAddKind.attrAdd element index, none⟩,
               focus := EditorFocus.Editing,
               editing_target := some EditTarget.FieldName,
               input_buffer := "new_attr",
               status := "Enter a name for the new attribute" }

def add (e : Editor) : Editor :=
  match e.focus with
  | EditorFocus.TypeList =>
    if e.multi_select then
      { e with status := "Multi-select: add fields from the field list" }
    else
      let e1 := push_undo e
      let types' := e1.types ++ [⟨"new_type", default_fields⟩]
      { e1 with types := types', selected_type := types'.length - 1,
                selected_field := 0, focus := EditorFocus.Editing,
                editing_target := some EditTarget.TypeName,
                input_buffer := "new_type",
                status := "Enter a name for the new type" }
  | EditorFocus.FieldList =>
    if e.multi_select then begin_multi_add_field e
    else if e.types = [] then e
    else
      let e1 := push_undo e
      let idx := ((e1.types[e1.selected_type]?).map
        (fun t => countElem t.fields "new_field")).getD 0
      let field : Field := ⟨FieldKey.element "new_field" idx, ""⟩
      match e1.types[e1.selected_type]? with
      | some ty =>
        let newFields := ty.fields ++ [field]
        { e1 with types := e1.types.set e1.selected_type { ty with fields := newFields },
                  selected_field := newFields.length - 1,
                  input_buffer := "new_field",
                  editing_target := some EditTarget.FieldName,
                  focus := EditorFocus.Editing,
                  status := "Added new field; enter a name" }
      | none => { e1 with status := "Added new field; enter a name" }
  | EditorFocus.Editing => e

def add_attribute (e : Editor) : Editor :=
  if e.multi_select then
    if e.focus = EditorFocus.FieldList then begin_multi_add_attribute e
    else { e with status := "Multi-select: add attributes from the field list" }
  else if e.types = [] then e
  else
    match current_field e with
    | none => e
    | some base_field =>
      let e1 := push_undo e
      let element := base_field.key.get_element_name
      let index := match base_field.key with
        | FieldKey.element _ i => i
        | FieldKey.attrib _ i _ => i
      let field : Field := ⟨FieldKey.attrib element index "new_attr", ""⟩
      match e1.types[e1.selected_type]? with
      | some ty =>
        let newFields := ty.fields ++ [field]
        { e1 with types := e1.types.set e1.selected_type { ty with fields := newFields },
                  selected_field := newFields.length - 1,
                  input_buffer := "new_attr",
                  editing_target := some EditTarget.FieldName,
                  focus := EditorFocus.Editing,
                  status := "Added new attribute; enter a name" }
      | none => e1

def copy (e : Editor) : Editor :=
  match e.focus with
  | EditorFocus.TypeList =>
    match e.types[e.selected_type]? with
    | some current =>
      let e1 := push_undo e
      let clone := { current with name := current.name ++ "_copy" }
      let types' := e1.types ++ [clone]
      { e1 with types := types', selected_type := types'.length - 1,
                selected_field := 0, status := "Type copied" }
    | none => e
  | EditorFocus.FieldList =>
    match (e.types[e.selected_type]?).bind (fun ty => ty.fields[e.selected_field]?) with
    | some field =>
      let e1 := push_undo e
      match e1.types[e1.selected_type]? with
      | some ty =>
        let newFields := ty.fields ++ [field]
        { e1 with types := e1.types.set e1.selected_type { ty with fields := newFields },
                  selected_field := newFields.length - 1, status := "Field copied" }
      | none => e1
    | none => e
  | EditorFocus.Editing => e

/-- `Editor::delete`. `Vec::remove` panics out of bounds; invariant 3 keeps
the removal index in bounds at both call sites (`eraseIdx` is then exact). -/
def delete (e : Editor) : Editor :=
  match e.focus with
  | EditorFocus.TypeList =>
    if e.types ≠ [] then
      let e1 := push_undo e
      let types' := e1.types.eraseIdx e1.selected_type
      let st' := if e1.selected_type ≥ types'.length ∧ types' ≠ [] then types'.length - 1
        else if types' = [] then 0
        else e1.selected_type
      { e1 with types := types', selected_type := st', selected_field := 0,
                status := "Type deleted" }
    else e
  | EditorFocus.FieldList =>
    let has_field := ((e.types[e.selected_type]?).map (fun ty => !ty.fields.isEmpty)).getD false
    if has_field then
      let e1 := push_undo e
      match e1.types[e1.selected_type]? with
      | some ty =>
        let fields' := ty.fields.eraseIdx e1.selected_field
        let sf' := if e1.selected_field ≥ fields'.length ∧ fields' ≠ [] then fields'.length - 1
          else if fields' = [] then 0
          else e1.selected_field
        { e1 with types := e1.types.set e1.selected_type { ty with fields := fields' },
                  selected_field := sf', status := "Field deleted" }
      | none => e1
    else e
  | EditorFocus.Editing => e

/-- `sort_unstable_by(|a, b| b.cmp(a))`: descending sort. -/
def insertDesc (x : Nat) : List Nat → List Nat
  | [] => [x]
  | y :: ys => if x ≥ y then x :: y :: ys else y :: insertDesc x ys

def sortDesc (l : List Nat) : List Nat := l.foldr insertDesc []

/-- The guarded removal loop of `delete_selected_types`. -/
def removeAtDesc : List TypeEntry → List Nat → List TypeEntry
  | ts, [] => ts
  | ts, i :: rest => removeAtDesc (if i < ts.length then ts.eraseIdx i else ts) rest

def delete_selected_types (e : Editor) : Editor :=
  if e.types = [] then e
  else
    let indices := selected_type_indices e
    if indices = [] then e
    else
      let e1 := push_undo e
      let desc := sortDesc indices
      let total := desc.length
      let types' := removeAtDesc e1.types desc
      let st' := if types' = [] then 0
        else if e1.selected_type ≥ types'.length then types'.length - 1
        else e1.selected_type
      { e1 with types := types', selected_type := st', selected_field := 0,
                multi_select := false, selected_types := [],
                status := "Deleted " ++ toString total ++ " types" }

/-- The `for idx in indices` loop of `delete_field_multi`. -/
def delFieldLoop (key : FieldKey) (selT : Nat) :
    List Nat → List TypeEntry → Nat → Nat → List TypeEntry × Nat × Nat
  | [], ts, sf, upd => (ts, sf, upd)
  | idx :: rest, ts, sf, upd =>
    match ts[idx]? with
    | some ty =>
      match ty.fields.findIdx? (fun f => f.key == key) with
      | some pos =>
        let fields' := ty.fields.eraseIdx pos
        let ts' := ts.set idx { ty with fields := fields' }
        let sf' := if idx = selT then
            (if sf ≥ fields'.length ∧ fields' ≠ [] then fields'.length - 1
             else if fields' = [] then 0 else sf)
          else sf
        delFieldLoop key selT rest ts' sf' (upd + 1)
      | none => delFieldLoop key selT rest ts sf upd
    | none => delFieldLoop key selT rest ts sf upd

def delete_field_multi (e : Editor) : Editor :=
  match current_field e with
  | none => e
  | some current =>
    let indices := selected_type_indices e
    if indices = [] then e
    else
      let e1 := push_undo e
      let r := delFieldLoop current.key e1.selected_type indices e1.types e1.selected_field 0
      { e1 with types := r.1, selected_field := r.2.1,
                status := "Deleted field from " ++ toString r.2.2 ++ " types" }

def delete_multi (e : Editor) : Editor :=
  match e.focus with
  | EditorFocus.TypeList => delete_selected_types e
  | EditorFocus.FieldList => delete_field_multi e
  | EditorFocus.Editing => e

/-- `toggle_type_selection`: the mode flag ends up `true` exactly when the
resulting set is non-empty (the code sets it on entry and clears it when the
set drains). -/
def toggle_type_selection (e : Editor) : Editor :=
  if e.focus = EditorFocus.TypeList ∧ e.types ≠ [] then
    let sel := if e.selected_types.contains e.selected_type then
        setRemove e.selected_type e.selected_types
      else setInsert e.selected_type e.selected_types
    if sel = [] then
      { e with multi_select := false, selected_types := sel,
               status := "Multi-select cleared" }
    else
      { e with multi_select := true, selected_types := sel,
               status := "Selected " ++ toString sel.length ++ " types" }
  else e

def clear_multi_select (e : Editor) : Editor :=
  if e.multi_select then
    { e with multi_select := false, selected_types := [],
             status := "Multi-select cleared" }
  else e

/-! ## Persistence -/

inductive IoErr where
  | invalidData (msg : String)
  | otherErr (msg : String)
deriving DecidableEq, Repr

inductive SaveContent where
  | raw (s : String)
  | doc (events : List XmlEvt)
deriving DecidableEq, Repr

/-- One attempted file operation, in order of attempt. -/
inductive FsOp where
  | read (path : String)
  | write (path : String) (content : SaveContent)
deriving DecidableEq, Repr

/-- Abstract file backend: outcome of reading / writing each path, and
whether the remote mutex can be acquired. -/
structure FileSys where
  readRes : String → Except IoErr String
  writeRes : String → Except IoErr Unit
  lockOk : Bool

/-- `Editor::save`. `PathBuf::add_extension("bak")` appends `.bak`; the
backup write's own result is discarded (`let _ = ...`), so only its attempt
is recorded in the trace. -/
def save (fs : FileSys) (e : Editor) : Editor × List FsOp × Except IoErr Unit :=
  match e.path with
  | none => ({ e with status := "No file loaded" }, [], Except.ok ())
  | some p =>
    let backup_path := p ++ ".bak"
    match e.source with
    | FileSource.localFs =>
      let backupOps := match fs.readRes p with
        | Except.ok content => [FsOp.read p, FsOp.write backup_path (SaveContent.raw content)]
        | Except.error _ => [FsOp.read p]
      let xml := serialize_types e.types
      match fs.writeRes p with
      | Except.ok _ =>
        ({ e with status := "Saved " ++ p },
         backupOps ++ [FsOp.write p (SaveContent.doc xml)], Except.ok ())
      | Except.error err =>
        (e, backupOps ++ [FsOp.write p (SaveContent.doc xml)], Except.error err)
    | FileSource.remote =>
      if fs.lockOk then
        let backupOps := match fs.readRes p with
          | Except.ok content => [FsOp.read p, FsOp.write backup_path (SaveContent.raw content)]
          | Except.error _ => [FsOp.read p]
        let xml := serialize_types e.types
        match fs.writeRes p with
        | Except.ok _ =>
          ({ e with status := "Saved remote " ++ p },
           backupOps ++ [FsOp.write p (SaveContent.doc xml)], Except.ok ())
        | Except.error err =>
          (e, backupOps ++ [FsOp.write p (SaveContent.doc xml)], Except.error err)
      else (e, [], Except.error (IoErr.otherErr "SSH backend in use"))

/-- `Editor::load`: all state assignments happen only after `parse_types`
succeeds (`?` returns first). -/
def load (e : Editor) (sel : FileSelection) (content : Except IoErr (List RdEvt)) :
    Editor × Except IoErr Unit :=
  match content with
  | Except.error err => (e, Except.error err)
  | Except.ok events =>
    match parse_types events with
    | Except.error msg =>
      (e, Except.error (IoErr.invalidData ("XML parse error: " ++ msg)))
    | Except.ok types =>
      ({ e with path := some sel.path, source := sel.source, types := types,
                selected_type := 0, selected_field := 0, multi_select := false,
                selected_types := [], undo_stack := [], redo_stack := [],
                focus := EditorFocus.TypeList, editing_target := none,
                pending_add := none, input_buffer := "",
                status := "Loaded file" }, Except.ok ())

/-! ## Actions -/

inductive Action where
  | Up
  | Down
  | Left
  | Right
  | PgUp
  | PgDown
  | Activate
  | Cancel
  | Add
  | AddAttribute
  | Copy
  | Delete
  | Save
  | Undo
  | Redo
  | ToggleSelect
  | ToggleRemote
  | Tab
  | Input (c : Char)
  | Backspace
  | Quit
  | Help
  | NoAction
deriving DecidableEq, Repr

/-- `Editor::handle_action` (the `Editor × trace × Result` of one event). -/
def handle_action (fs : FileSys) (a : Action) (e : Editor) :
    Editor × List FsOp × Except IoErr Unit :=
  match e.focus with
  | EditorFocus.Editing =>
    match a with
    | Action.Input c => ({ e with input_buffer := e.input_buffer.push c }, [], Except.ok ())
    | Action.Backspace =>
      ({ e with input_buffer := e.input_buffer.dropRight 1 }, [], Except.ok ())
    | Action.Activate =>
      let r := apply_input e
      (if r.2 then r.1 else stop_editing r.1, [], Except.ok ())
    | Action.Cancel =>
      ({ stop_editing { e with input_buffer := "" } with status := "Edit cancelled" },
       [], Except.ok ())
    | _ => (e, [], Except.ok ())
  | _ =>
    match a with
    | Action.Up => (move_selection (-1) e, [], Except.ok ())
    | Action.Down => (move_selection 1 e, [], Except.ok ())
    | Action.Left => ({ e with focus := EditorFocus.TypeList }, [], Except.ok ())
    | Action.Right =>
      (if e.types ≠ [] then { e with focus := EditorFocus.FieldList } else e,
       [], Except.ok ())
    | Action.PgUp => (move_selection (-10) e, [], Except.ok ())
    | Action.PgDown => (move_selection 10 e, [], Except.ok ())
    | Action.Activate =>
      (if e.multi_select then { e with status := "Multi-select: editing disabled" }
       else begin_editing e, [], Except.ok ())
    | Action.Add => (add e, [], Except.ok ())
    | Action.AddAttribute => (add_attribute e, [], Except.ok ())
    | Action.Copy =>
      (if e.multi_select then { e with status := "Multi-select: editing disabled" }
       else copy e, [], Except.ok ())
    | Action.Delete =>
      (if e.multi_select then delete_multi e else delete e, [], Except.ok ())
    | Action.Undo => (undo e, [], Except.ok ())
    | Action.Redo => (redo e, [], Except.ok ())
    | Action.Save => save fs e
    | Action.ToggleSelect => (toggle_type_selection e, [], Except.ok ())
    | Action.Cancel => (clear_multi_select e, [], Except.ok ())
    | _ => (e, [], Except.ok ())

/-- The Tips pane computation of `Editor::draw` (line 346): the
`current_field().unwrap()` is modelled by `Option`: `none` is the panic. -/
def draw (e : Editor) : Option String :=
  (current_field e).map (fun f => f.key.get_help_text)

/-! ## Shared list helpers -/

theorem lt_of_getElem?_eq_some {α : Type} {l : List α} {i : Nat} {a : α}
    (h : l[i]? = some a) : i < l.length := by
  by_cases hc : i < l.length
  · exact hc
  · rw [List.getElem?_eq_none_iff.mpr (by omega)] at h; cases h

/-! ## C7: nesting beyond two levels -/

def c7Events : List RdEvt :=
  [RdEvt.ok (XmlEvt.startElem "types" []),
   RdEvt.ok (XmlEvt.startElem "type" [("name", "T")]),
   RdEvt.ok (XmlEvt.startElem "child" []),
   RdEvt.ok (XmlEvt.startElem "grand" [("a", "1")]),
   RdEvt.ok (XmlEvt.endElem "grand"),
   RdEvt.ok (XmlEvt.endElem "child"),
   RdEvt.ok (XmlEvt.endElem "type"),
   RdEvt.ok (XmlEvt.endElem "types")]

/-- C7 counterexample: parsing `<types><type name="T"><child><grand a="1"/>
</child></type></types>` yields a Field from the grandchild's attribute —
grandchild content is NOT ignored, contradicting the claim that content
nested beyond two levels contributes no Field. -/
theorem c7_counterexample :
    parse_types c7Events =
        Except.ok [⟨"T", [⟨FieldKey.attrib "grand" 0 "a", "1"⟩]⟩] ∧
      parse_types c7Events ≠ Except.ok [⟨"T", []⟩] := by
  refine ⟨rfl, fun h => ?_⟩
  exact absurd (Except.ok.inj h) (by decide)

def grandchildEvents (n child g a v : String) (text : Option String) : List XmlEvt :=
  [XmlEvt.startElem "types" [], XmlEvt.startElem "type" [("name", n)],
   XmlEvt.startElem child [], XmlEvt.startElem g [(a, v)]] ++
    (match text with
     | some t => [XmlEvt.characters t]
     | none => []) ++
   [XmlEvt.endElem g, XmlEvt.endElem child, XmlEvt.endElem "type",
    XmlEvt.endElem "types"]

/-- C7 (amended): XML content nested beyond two levels inside a `<type>` is
NOT ignored: a grandchild start tag is processed exactly like a direct
child — its attributes become Attribute Fields and its character data an
Element Field, keyed by the grandchild's own name and per-type occurrence
index. -/
theorem c7_grandchild_not_ignored (n child g a v : String) (text : Option String)
    (hchild : child ≠ "type") (hg : g ≠ "type") (hgc : child ≠ g)
    (ht : textOk text) :
    parse_types ((grandchildEvents n child g a v text).map RdEvt.ok) =
      Except.ok [⟨n, ⟨FieldKey.attrib g 0 a, v⟩ ::
        (match text with
         | some t => [⟨FieldKey.element g 0, t⟩]
         | none => [])⟩] := by
  cases text with
  | none =>
    simp [parse_types, parseRun, grandchildEvents, parseStep, nameAttr_single,
      idxLookup, idxBump, hchild, hg, hgc, Except.map, initPState]
  | some t =>
    obtain ⟨ht1, ht2⟩ := ht
    simp [parse_types, parseRun, grandchildEvents, parseStep, nameAttr_single,
      idxLookup, idxBump, hchild, hg, hgc, ht1, ht2, Except.map, initPState]

/-- Witness for the amended C7 at a concrete input. -/
theorem c7_grandchild_not_ignored_witness :
    parse_types ((grandchildEvents "T" "child" "grand" "a" "1" none).map RdEvt.ok) =
      Except.ok [⟨"T", [⟨FieldKey.attrib "grand" 0 "a", "1"⟩]⟩] :=
  c7_grandchild_not_ignored "T" "child" "grand" "a" "1" none (by decide) (by decide)
    (by decide) (by decide)

/-! ## C10: draw unwraps the current field -/

/-- C10: `Editor::draw` unconditionally unwraps `current_field()` for the
Tips pane, so rendering panics (`draw e = none`) exactly when no current
field exists: the document is empty, the selected type's field list is
empty (which subsumes an out-of-range `selected_type`), or `selected_field`
is out of range; it is total exactly when a current field exists. -/
theorem c10_draw_requires_current_field (e : Editor) :
    (draw e = none ↔
      (e.types = [] ∨ current_fields e = [] ∨
        (current_fields e).length ≤ e.selected_field)) ∧
    (draw e = none ↔ current_field e = none) := by
  have hmap : draw e = none ↔ current_field e = none := by
    simp [draw]
  refine ⟨?_, hmap⟩
  rw [hmap]
  cases hst : e.types[e.selected_type]? with
  | none =>
    have h1 : current_field e = none := by
      unfold current_field; rw [hst]; rfl
    have h2 : current_fields e = [] := by
      unfold current_fields; rw [hst]; rfl
    simp [h1, h2]
  | some t =>
    have hne : e.types ≠ [] := by
      intro h
      rw [h] at hst
      simp at hst
    have h1 : current_field e = t.fields[e.selected_field]? := by
      unfold current_field; rw [hst]; rfl
    have h2 : current_fields e = t.fields := by
      unfold current_fields; rw [hst]; rfl
    rw [h1, h2, List.getElem?_eq_none_iff]
    simp only [hne, false_or]
    constructor
    · exact fun h => Or.inr h
    · rintro (h | h)
      · simp [h]
      · exact h

/-! ## C5: wrap vs clamp in calculate_move_idx -/

/-- C5 counterexample: a PgUp (delta −10) from index 0 with 5 items lands on
index 4 (wraps), not 0 as the claim states for Page moves; symmetrically a
PgDown from the last index wraps to 0 rather than staying. -/
theorem c5_counterexample :
    calculate_move_idx 0 (0 - 10) 5 = 4 ∧ calculate_move_idx 4 (4 + 10) 5 = 0 := by
  constructor <;> rfl

/-- C5 (amended): a complete characterisation of `calculate_move_idx` for any
in-range start `i < N` and any delta. The move wraps in exactly two cases,
both at the boundary lying in the direction of movement: from index 0 any
negative delta yields N−1, and from index N−1 any move to N or beyond yields
0. From every other start — interior indices and the boundary opposite the
direction of movement — the result is clamped into [0, N−1]: PgUp from N−1
clamps, and PgDown from 0 with N > 10 lands on 10. Single steps instantiate
the two wrap cases. -/
theorem c5_move_semantics (N i : Nat) (delta : Int) (hN : 0 < N) (hi : i < N) :
    calculate_move_idx i ((i : Int) + delta) N =
      if i = 0 ∧ delta < 0 then (N : Int) - 1
      else if (i : Int) = (N : Int) - 1 ∧ (i : Int) + delta ≥ (N : Int) then 0
      else max 0 (min ((N : Int) - 1) ((i : Int) + delta)) := by
  unfold calculate_move_idx
  split_ifs <;> omega

/-- Witness for the amended C5: a PgUp (delta −10) from the last index of a
12-element list clamps to index 1 (the boundary opposite the direction of
movement does not wrap). -/
theorem c5_move_semantics_witness :
    calculate_move_idx 11 ((11 : Int) + (-10)) 12 =
      if (11 : Nat) = 0 ∧ (-10 : Int) < 0 then (12 : Int) - 1
      else if ((11 : Nat) : Int) = (12 : Int) - 1 ∧
          ((11 : Nat) : Int) + (-10) ≥ (12 : Int) then 0
      else max 0 (min ((12 : Int) - 1) (((11 : Nat) : Int) + (-10))) :=
  c5_move_semantics 12 11 (-10) (by decide) (by decide)

/-! ## C6: selection after a single-select delete -/

def c6Example : Editor :=
  { Editor.new with types := [⟨"A", []⟩, ⟨"B", []⟩, ⟨"C", []⟩],
                    selected_type := 1, focus := EditorFocus.TypeList }

/-- C6 counterexample: deleting the middle type of three keeps the selection
index at 1 (the former successor slides into place); the claim's
"predecessor" (index 0) is wrong whenever the deleted item was not last. -/
theorem c6_counterexample :
    (delete c6Example).selected_type = 1 ∧ (delete c6Example).selected_type ≠ 0 := by
  refine ⟨rfl, by decide⟩

/-- C6 (amended): after a single-select delete of the current type (TypeList
focus) or current field (FieldList focus), the new selection index is the
deleted index clamped to the shortened list: unchanged when a successor
existed, the predecessor when the deleted item was last, 0 when the list is
now empty — and always within bounds. -/
theorem c6_delete_clamps (e : Editor) :
    (e.focus = EditorFocus.TypeList → e.types ≠ [] →
      e.selected_type < e.types.length →
      (delete e).types.length = e.types.length - 1 ∧
      (delete e).selected_type =
        (if e.types.length - 1 = 0 then 0
         else min e.selected_type (e.types.length - 2)) ∧
      ((delete e).types = [] ∨ (delete e).selected_type < (delete e).types.length)) ∧
    (e.focus = EditorFocus.FieldList → current_fields e ≠ [] →
      e.selected_field < (current_fields e).length →
      (current_fields (delete e)).length = (current_fields e).length - 1 ∧
      (delete e).selected_field =
        (if (current_fields e).length - 1 = 0 then 0
         else min e.selected_field ((current_fields e).length - 2)) ∧
      (current_fields (delete e) = [] ∨
        (delete e).selected_field < (current_fields (delete e)).length)) := by
  constructor
  · intro hf hne hlt
    simp only [delete, hf, hne, ne_eq, not_false_eq_true, if_true, push_undo, snapshot]
    have hlen : (e.types.eraseIdx e.selected_type).length = e.types.length - 1 :=
      List.length_eraseIdx_of_lt hlt
    have hemp : (e.types.eraseIdx e.selected_type = []) ↔ e.types.length - 1 = 0 := by
      rw [← hlen, List.length_eq_zero]
    refine ⟨hlen, ?_, ?_⟩
    · simp only [hlen, hemp]
      split_ifs <;> omega
    · simp only [hlen, hemp]
      split_ifs <;> omega
  · intro hf hne hlt
    obtain ⟨ty, hty, hfne⟩ : ∃ ty, e.types[e.selected_type]? = some ty ∧ ty.fields ≠ [] := by
      unfold current_fields at hne
      cases hst : e.types[e.selected_type]? with
      | none => rw [hst] at hne; simp at hne
      | some t =>
        refine ⟨t, rfl, ?_⟩
        rw [hst] at hne
        simpa using hne
    have hcf : current_fields e = ty.fields := by
      unfold current_fields
      rw [hty]
      rfl
    have hstlt : e.selected_type < e.types.length := lt_of_getElem?_eq_some hty
    have hD : delete e = { e with
        types := e.types.set e.selected_type
          { ty with fields := ty.fields.eraseIdx e.selected_field },
        selected_field :=
          (if e.selected_field ≥ (ty.fields.eraseIdx e.selected_field).length ∧
              ty.fields.eraseIdx e.selected_field ≠ [] then
            (ty.fields.eraseIdx e.selected_field).length - 1
          else if ty.fields.eraseIdx e.selected_field = [] then 0
          else e.selected_field),
        undo_stack := snapshot e :: e.undo_stack, redo_stack := [],
        status := "Field deleted" } := by
      simp only [delete, hf]
      rw [if_pos]
      · simp only [push_undo, hty]
        rw [hf]
      · rw [hty]
        simpa using hfne
    have hcur : current_fields (delete e) = ty.fields.eraseIdx e.selected_field := by
      rw [hD]
      unfold current_fields
      simp [List.getElem?_set_self hstlt]
    rw [hcf] at hlt ⊢
    have hlen : (ty.fields.eraseIdx e.selected_field).length = ty.fields.length - 1 :=
      List.length_eraseIdx_of_lt hlt
    have hemp : (ty.fields.eraseIdx e.selected_field = []) ↔ ty.fields.length - 1 = 0 := by
      rw [← hlen, List.length_eq_zero]
    refine ⟨?_, ?_, ?_⟩
    · rw [hcur, hlen]
    · simp only [hD, ne_eq, hlen, hemp]
      split_ifs <;> omega
    · rw [hcur]
      simp only [hD, ne_eq, hlen, hemp]
      split_ifs <;> omega

def c6Example2 : Editor :=
  { Editor.new with types := [⟨"A", []⟩, ⟨"B", []⟩, ⟨"C", []⟩],
                    selected_type := 2, focus := EditorFocus.TypeList }

/-- Witness for the amended C6: deleting the last of three types moves the
selection to the predecessor. -/
theorem c6_delete_clamps_witness :
    (delete c6Example2).types.length = c6Example2.types.length - 1 ∧
    (delete c6Example2).selected_type =
      (if c6Example2.types.length - 1 = 0 then 0
       else min c6Example2.selected_type (c6Example2.types.length - 2)) ∧
    ((delete c6Example2).types = [] ∨
      (delete c6Example2).selected_type < (delete c6Example2).types.length) :=
  (c6_delete_clamps c6Example2).1 (by decide) (by decide) (by decide)

/-! ## C3: loading malformed XML -/

theorem parseRun_err (m : String) :
    ∀ (evts : List RdEvt) (s : PState), RdEvt.err m ∈ evts →
      ∃ msg, parseRun s evts = Except.error msg := by
  intro evts
  induction evts with
  | nil => intro s h; simp at h
  | cons ev rest ih =>
    intro s h
    cases ev with
    | err m' => exact ⟨m', rfl⟩
    | ok ev' =>
      have hmem : RdEvt.err m ∈ rest := by
        rcases List.mem_cons.mp h with h1 | h2
        · exact absurd h1 (by simp)
        · exact h2
      exact ih (parseStep s ev') hmem

/-- C3: loading an input whose XML stream is malformed (the reader yields an
error event) fails with the InvalidData-wrapped parse message, and the
editor value is returned entirely unchanged — document types, selection,
multi-select set, undo and redo stacks, path, source, everything. -/
theorem c3_load_malformed (e : Editor) (sel : FileSelection) (evts : List RdEvt)
    (m : String) (hmem : RdEvt.err m ∈ evts) :
    ∃ msg, load e sel (Except.ok evts) =
      (e, Except.error (IoErr.invalidData ("XML parse error: " ++ msg))) := by
  obtain ⟨msg, hrun⟩ := parseRun_err m evts initPState hmem
  refine ⟨msg, ?_⟩
  simp [load, parse_types, hrun, Except.map]

/-- Witness for C3 at a concrete malformed stream. -/
theorem c3_load_malformed_witness :
    ∃ msg, load Editor.new ⟨"types.xml", FileSource.localFs⟩
        (Except.ok [RdEvt.ok (XmlEvt.startElem "types" []), RdEvt.err "boom"]) =
      (Editor.new, Except.error (IoErr.invalidData ("XML parse error: " ++ msg))) :=
  c3_load_malformed Editor.new ⟨"types.xml", FileSource.localFs⟩
    [RdEvt.ok (XmlEvt.startElem "types" []), RdEvt.err "boom"] "boom" (by decide)

/-! ## C8: the Save backup policy -/

/-- C8: Save first attempts the backup — it reads the prior content of the
path and, only when that read succeeds, writes it to `<path>.bak` on the
same source; on a failed read no backup is written and the save proceeds.
The serialized document is written to the path strictly after the backup
attempt, and the command's result equals exactly the primary write's
result: the backup write's own outcome is nowhere consulted (suppressed). -/
theorem c8_save_backup_policy (e : Editor) (fs : FileSys) (p : String)
    (hp : e.path = some p) (hl : e.source = FileSource.remote → fs.lockOk = true) :
    (save fs e).2.1 =
      FsOp.read p ::
        ((match fs.readRes p with
          | Except.ok c => [FsOp.write (p ++ ".bak") (SaveContent.raw c)]
          | Except.error _ => []) ++
         [FsOp.write p (SaveContent.doc (serialize_types e.types))]) ∧
    (save fs e).2.2 = fs.writeRes p := by
  cases hsrc : e.source with
  | localFs =>
    cases hr : fs.readRes p with
    | ok c =>
      cases hw : fs.writeRes p with
      | ok u => cases u; exact ⟨by simp [save, hp, hsrc, hr, hw], by simp [save, hp, hsrc, hr, hw]⟩
      | error err => exact ⟨by simp [save, hp, hsrc, hr, hw], by simp [save, hp, hsrc, hr, hw]⟩
    | error rerr =>
      cases hw : fs.writeRes p with
      | ok u => cases u; exact ⟨by simp [save, hp, hsrc, hr, hw], by simp [save, hp, hsrc, hr, hw]⟩
      | error err => exact ⟨by simp [save, hp, hsrc, hr, hw], by simp [save, hp, hsrc, hr, hw]⟩
  | remote =>
    have hlock := hl hsrc
    cases hr : fs.readRes p with
    | ok c =>
      cases hw : fs.writeRes p with
      | ok u =>
        cases u
        exact ⟨by simp [save, hp, hsrc, hr, hw, hlock], by simp [save, hp, hsrc, hr, hw, hlock]⟩
      | error err =>
        exact ⟨by simp [save, hp, hsrc, hr, hw, hlock], by simp [save, hp, hsrc, hr, hw, hlock]⟩
    | error rerr =>
      cases hw : fs.writeRes p with
      | ok u =>
        cases u
        exact ⟨by simp [save, hp, hsrc, hr, hw, hlock], by simp [save, hp, hsrc, hr, hw, hlock]⟩
      | error err =>
        exact ⟨by simp [save, hp, hsrc, hr, hw, hlock], by simp [save, hp, hsrc, hr, hw, hlock]⟩

def c8Editor : Editor := { Editor.new with path := some "db/types.xml" }

def c8Fs : FileSys := ⟨fun _ => Except.ok "old content", fun _ => Except.ok (), true⟩

/-- Witness for C8 on a concrete local save. -/
theorem c8_save_backup_policy_witness :
    (save c8Fs c8Editor).2.1 =
      FsOp.read "db/types.xml" ::
        ((match c8Fs.readRes "db/types.xml" with
          | Except.ok c => [FsOp.write ("db/types.xml" ++ ".bak") (SaveContent.raw c)]
          | Except.error _ => []) ++
         [FsOp.write "db/types.xml" (SaveContent.doc (serialize_types c8Editor.types))]) ∧
    (save c8Fs c8Editor).2.2 = c8Fs.writeRes "db/types.xml" :=
  c8_save_backup_policy c8Editor c8Fs "db/types.xml" rfl (fun _ => rfl)

/-! ## C4: multi-select Add-field fan-out -/

theorem addLoop_fieldAdd_spec (F V : String) (selT : Nat) :
    ∀ (idxs : List Nat) (ts : List TypeEntry) (sf upd : Nat), idxs.Nodup →
      (∀ i ∈ idxs, ∀ t, ts[i]? = some t →
        (addLoop PendingAddKind.fieldAdd F V selT idxs ts sf upd).1[i]? =
          some { t with fields :=
            t.fields ++ [⟨FieldKey.element F (countElem t.fields F), V⟩] }) ∧
      (∀ i, i ∉ idxs →
        (addLoop PendingAddKind.fieldAdd F V selT idxs ts sf upd).1[i]? = ts[i]?) := by
  intro idxs
  induction idxs with
  | nil =>
    intro ts sf upd _
    exact ⟨fun i hi => absurd hi (List.not_mem_nil i), fun i _ => rfl⟩
  | cons idx rest ih =>
    intro ts sf upd hnd
    have hndr : rest.Nodup := (List.nodup_cons.mp hnd).2
    have hnotin : idx ∉ rest := (List.nodup_cons.mp hnd).1
    cases hty : ts[idx]? with
    | none =>
      have hstep : addLoop PendingAddKind.fieldAdd F V selT (idx :: rest) ts sf upd =
          addLoop PendingAddKind.fieldAdd F V selT rest ts sf upd := by
        simp [addLoop, hty]
      rw [hstep]
      obtain ⟨ih1, ih2⟩ := ih ts sf upd hndr
      constructor
      · intro i hi t ht
        rcases List.mem_cons.mp hi with h1 | h2
        · subst h1; rw [hty] at ht; cases ht
        · exact ih1 i h2 t ht
      · intro i hi
        exact ih2 i (fun h => hi (List.mem_cons_of_mem _ h))
    | some ty =>
      have hlt : idx < ts.length := lt_of_getElem?_eq_some hty
      have hstep : addLoop PendingAddKind.fieldAdd F V selT (idx :: rest) ts sf upd =
          addLoop PendingAddKind.fieldAdd F V selT rest
            (ts.set idx { ty with fields :=
              ty.fields ++ [(⟨FieldKey.element F (countElem ty.fields F), V⟩ : Field)] })
            (if idx = selT then
              (ty.fields ++ [(⟨FieldKey.element F (countElem ty.fields F), V⟩ : Field)]).length - 1
             else sf)
            (upd + 1) := by
        simp [addLoop, hty]
      rw [hstep]
      obtain ⟨ih1, ih2⟩ := ih
        (ts.set idx { ty with fields :=
          ty.fields ++ [(⟨FieldKey.element F (countElem ty.fields F), V⟩ : Field)] })
        (if idx = selT then
          (ty.fields ++ [(⟨FieldKey.element F (countElem ty.fields F), V⟩ : Field)]).length - 1
         else sf)
        (upd + 1) hndr
      constructor
      · intro i hi t ht
        rcases List.mem_cons.mp hi with h1 | h2
        · rw [h1] at ht ⊢
          have ht' : t = ty := by
            rw [hty] at ht
            exact (Option.some.inj ht).symm
          subst ht'
          rw [ih2 idx hnotin, List.getElem?_set_self hlt]
        · have hne : idx ≠ i := fun hcontra => hnotin (hcontra ▸ h2)
          have := ih1 i h2 t (by rw [List.getElem?_set_ne hne]; exact ht)
          exact this
      · intro i hi
        have hne : idx ≠ i := fun hcontra => hi (hcontra ▸ List.mem_cons_self idx rest)
        rw [ih2 i (fun h => hi (List.mem_cons_of_mem _ h)), List.getElem?_set_ne hne]

/-- C4: committing a multi-select Add-field (deferred add with collected
name `F` and entered value `V`) appends to every selected (and existing)
type exactly one new Element-keyed field named `F` with value `V` at its
end, whose index is that type's prior count of `F`-named Element fields,
and leaves every non-selected type unchanged. -/
theorem c4_multi_add_fanout (e : Editor) (F V : String)
    (hm : e.multi_select = true)
    (hpend : e.pending_add = some ⟨PendingAddKind.fieldAdd, some F⟩)
    (htgt : e.editing_target = some EditTarget.FieldValue)
    (hbuf : e.input_buffer = V)
    (hnd : e.selected_types.Nodup) :
    (∀ i ∈ e.selected_types, ∀ t, e.types[i]? = some t →
      (apply_pending_add e).1.types[i]? =
        some { t with fields :=
          t.fields ++ [⟨FieldKey.element F (countElem t.fields F), V⟩] }) ∧
    (∀ i, i ∉ e.selected_types → (apply_pending_add e).1.types[i]? = e.types[i]?) := by
  have hind : selected_type_indices e = e.selected_types := by
    simp [selected_type_indices, hm]
  by_cases hemp : e.selected_types = []
  · have happ : (apply_pending_add e).1 = { e with status := "No types selected" } := by
      simp [apply_pending_add, hpend, htgt, hind, hemp]
    rw [happ]
    exact ⟨fun i hi => absurd hi (by rw [hemp]; exact List.not_mem_nil i),
      fun i _ => rfl⟩
  · have happ : (apply_pending_add e).1.types =
        (addLoop PendingAddKind.fieldAdd F V e.selected_type e.selected_types
          e.types e.selected_field 0).1 := by
      simp [apply_pending_add, hpend, htgt, hind, hemp, hbuf, push_undo]
    rw [happ]
    exact addLoop_fieldAdd_spec F V e.selected_type e.selected_types e.types
      e.selected_field 0 hnd

def c4Editor : Editor :=
  { Editor.new with
      types := [⟨"A", [⟨FieldKey.element "tier" 0, "1"⟩]⟩, ⟨"B", []⟩, ⟨"C", []⟩],
      multi_select := true, selected_types := [0, 2],
      focus := EditorFocus.Editing,
      editing_target := some EditTarget.FieldValue,
      pending_add := some ⟨PendingAddKind.fieldAdd, some "tier"⟩,
      input_buffer := "2" }

/-- Witness for C4: fan-out over selected types 0 and 2 of three. -/
theorem c4_multi_add_fanout_witness :
    (∀ i ∈ c4Editor.selected_types, ∀ t, c4Editor.types[i]? = some t →
      (apply_pending_add c4Editor).1.types[i]? =
        some { t with fields :=
          t.fields ++ [⟨FieldKey.element "tier" (countElem t.fields "tier"), "2"⟩] }) ∧
    (∀ i, i ∉ c4Editor.selected_types →
      (apply_pending_add c4Editor).1.types[i]? = c4Editor.types[i]?) :=
  c4_multi_add_fanout c4Editor "tier" "2" rfl rfl rfl rfl (by decide)

/-! ## C2: undo/redo symmetry

A mutating command is modelled as `doCmd m`: `push_undo` (snapshot pushed,
redo stack cleared, exactly as every mutating command in editor.rs begins)
followed by an arbitrary mutation `m` that does not touch the two history
stacks (`StackPres` — true of every mutation body in editor.rs). State
equality is at the snapshot level: the document, selection, multi-select
set and (snapshot-normalised) focus, which is precisely what §4.5's
snapshots capture and restore. -/

def StackPres (m : Editor → Editor) : Prop :=
  ∀ e, (m e).undo_stack = e.undo_stack ∧ (m e).redo_stack = e.redo_stack

def doCmd (m : Editor → Editor) (e : Editor) : Editor := m (push_undo e)

def runCmds : List (Editor → Editor) → Editor → Editor
  | [], e => e
  | m :: ms, e => runCmds ms (doCmd m e)

def undoN : Nat → Editor → Editor
  | 0, e => e
  | n + 1, e => undoN n (undo e)

def redoN : Nat → Editor → Editor
  | 0, e => e
  | n + 1, e => redoN n (redo e)

/-- The snapshots pushed while running `ms` (most recent first). -/
def snapsAlong : List (Editor → Editor) → Editor → List EditorSnapshot
  | [], _ => []
  | m :: ms, e => snapsAlong ms (doCmd m e) ++ [snapshot e]

/-- The editor state right after an undo restored `s`. -/
def afterUndo (e : Editor) (s : EditorSnapshot)
    (undoL redoL : List EditorSnapshot) : Editor :=
  ⟨e.path, e.source, s.types, s.selected_type, s.selected_field, s.multi_select,
    s.selected_types, undoL, redoL, s.focus, none, none, "", "Undid change"⟩

/-- The editor state right after a redo restored `s`. -/
def afterRedo (e : Editor) (s : EditorSnapshot)
    (undoL redoL : List EditorSnapshot) : Editor :=
  ⟨e.path, e.source, s.types, s.selected_type, s.selected_field, s.multi_select,
    s.selected_types, undoL, redoL, s.focus, none, none, "", "Redid change"⟩

theorem snapshotFocus_ne_editing (f : EditorFocus) :
    snapshotFocus f ≠ EditorFocus.Editing := by
  cases f <;> simp [snapshotFocus]

theorem snapshotFocus_of_ne (f : EditorFocus) (h : f ≠ EditorFocus.Editing) :
    snapshotFocus f = f := by
  cases f
  · rfl
  · rfl
  · exact absurd rfl h

theorem snapshot_afterUndo (e : Editor) (s : EditorSnapshot)
    (undoL redoL : List EditorSnapshot) (h : s.focus ≠ EditorFocus.Editing) :
    snapshot (afterUndo e s undoL redoL) = s := by
  obtain ⟨t, st, sf, ms, sel, f⟩ := s
  unfold snapshot afterUndo
  simp
  exact snapshotFocus_of_ne f h

theorem snapshot_afterRedo (e : Editor) (s : EditorSnapshot)
    (undoL redoL : List EditorSnapshot) (h : s.focus ≠ EditorFocus.Editing) :
    snapshot (afterRedo e s undoL redoL) = s := by
  obtain ⟨t, st, sf, ms, sel, f⟩ := s
  unfold snapshot afterRedo
  simp
  exact snapshotFocus_of_ne f h

theorem undo_cons (e : Editor) (s₀ : EditorSnapshot) (rest : List EditorSnapshot)
    (h : e.undo_stack = s₀ :: rest) :
    undo e = afterUndo e s₀ rest (snapshot e :: e.redo_stack) := by
  simp [undo, h, restore_snapshot, afterUndo]

theorem redo_cons (e : Editor) (s₀ : EditorSnapshot) (rest : List EditorSnapshot)
    (h : e.redo_stack = s₀ :: rest) :
    redo e = afterRedo e s₀ (snapshot e :: e.undo_stack) rest := by
  simp [redo, h, restore_snapshot, afterRedo]

theorem undoN_stack (L : List EditorSnapshot) :
    ∀ (s : EditorSnapshot) (rest : List EditorSnapshot) (e : Editor),
      e.undo_stack = L ++ s :: rest →
      (∀ x ∈ L, x.focus ≠ EditorFocus.Editing) → s.focus ≠ EditorFocus.Editing →
      undoN (L.length + 1) e =
        afterUndo e s rest (L.reverse ++ snapshot e :: e.redo_stack) := by
  induction L with
  | nil =>
    intro s rest e he _ hs
    show undo e = _
    rw [undo_cons e s rest (by simpa using he)]
    simp
  | cons s₀ L ih =>
    intro s rest e he hL hs
    have h0 : undo e = afterUndo e s₀ (L ++ s :: rest) (snapshot e :: e.redo_stack) :=
      undo_cons e s₀ (L ++ s :: rest) (by simpa using he)
    have hstep : undoN ((s₀ :: L).length + 1) e = undoN (L.length + 1) (undo e) := rfl
    rw [hstep, h0]
    rw [ih s rest _ rfl (fun x hx => hL x (List.mem_cons_of_mem _ hx)) hs]
    have hsnap : snapshot (afterUndo e s₀ (L ++ s :: rest)
        (snapshot e :: e.redo_stack)) = s₀ :=
      snapshot_afterUndo _ _ _ _ (hL s₀ (List.mem_cons_self _ _))
    rw [hsnap]
    simp [afterUndo]

theorem redoN_stack (L : List EditorSnapshot) :
    ∀ (s : EditorSnapshot) (rest : List EditorSnapshot) (e : Editor),
      e.redo_stack = L ++ s :: rest →
      (∀ x ∈ L, x.focus ≠ EditorFocus.Editing) → s.focus ≠ EditorFocus.Editing →
      redoN (L.length + 1) e =
        afterRedo e s (L.reverse ++ snapshot e :: e.undo_stack) rest := by
  induction L with
  | nil =>
    intro s rest e he _ hs
    show redo e = _
    rw [redo_cons e s rest (by simpa using he)]
    simp
  | cons s₀ L ih =>
    intro s rest e he hL hs
    have h0 : redo e = afterRedo e s₀ (snapshot e :: e.undo_stack) (L ++ s :: rest) :=
      redo_cons e s₀ (L ++ s :: rest) (by simpa using he)
    have hstep : redoN ((s₀ :: L).length + 1) e = redoN (L.length + 1) (redo e) := rfl
    rw [hstep, h0]
    rw [ih s rest _ rfl (fun x hx => hL x (List.mem_cons_of_mem _ hx)) hs]
    have hsnap : snapshot (afterRedo e s₀ (snapshot e :: e.undo_stack)
        (L ++ s :: rest)) = s₀ :=
      snapshot_afterRedo _ _ _ _ (hL s₀ (List.mem_cons_self _ _))
    rw [hsnap]
    simp [afterRedo]

theorem runCmds_stack (ms : List (Editor → Editor)) :
    ∀ e, (∀ m ∈ ms, StackPres m) →
      (runCmds ms e).undo_stack = snapsAlong ms e ++ e.undo_stack ∧
      (ms = [] ∨ (runCmds ms e).redo_stack = []) := by
  induction ms with
  | nil =>
    intro e _
    exact ⟨by simp [runCmds, snapsAlong], Or.inl rfl⟩
  | cons m ms ih =>
    intro e hp
    have hm := hp m (List.mem_cons_self m ms)
    have h1 : (doCmd m e).undo_stack = snapshot e :: e.undo_stack := by
      have h := (hm (push_undo e)).1
      rw [doCmd, h]
      rfl
    have h2 : (doCmd m e).redo_stack = [] := by
      have h := (hm (push_undo e)).2
      rw [doCmd, h]
      rfl
    obtain ⟨ih1, ih2⟩ := ih (doCmd m e) (fun m' h' => hp m' (List.mem_cons_of_mem _ h'))
    refine ⟨?_, Or.inr ?_⟩
    · show (runCmds ms (doCmd m e)).undo_stack = _
      rw [ih1, h1, snapsAlong]
      simp
    · rcases ih2 with hms | hred
      · subst hms
        exact h2
      · exact hred

theorem snapsAlong_length (ms : List (Editor → Editor)) :
    ∀ e, (snapsAlong ms e).length = ms.length := by
  induction ms with
  | nil => intro e; rfl
  | cons m ms ih => intro e; simp [snapsAlong, ih]

theorem snapsAlong_focus (ms : List (Editor → Editor)) :
    ∀ e x, x ∈ snapsAlong ms e → x.focus ≠ EditorFocus.Editing := by
  induction ms with
  | nil => intro e x h; simp [snapsAlong] at h
  | cons m ms ih =>
    intro e x h
    rw [snapsAlong, List.mem_append] at h
    rcases h with h | h
    · exact ih (doCmd m e) x h
    · rw [List.mem_singleton] at h
      subst h
      exact snapshotFocus_ne_editing _

theorem redo_after_cmd (m : Editor → Editor) (hm : StackPres m) (e : Editor) :
    (doCmd m e).redo_stack = [] ∧
    redo (doCmd m e) = { doCmd m e with status := "Nothing to redo" } := by
  have h2 : (doCmd m e).redo_stack = [] := by
    have h := (hm (push_undo e)).2
    rw [doCmd, h]
    rfl
  refine ⟨h2, ?_⟩
  simp [redo, h2]

/-- C2: from any starting editor state `S0`, running N mutating commands
(each first pushes a snapshot and clears the redo stack, then mutates
without touching the two history stacks) and then N undos restores the
snapshot state (document, selection, multi-select, normalised focus) of
`S0`; N further redos restore the snapshot state reached after the N
commands; and a mutating command issued afterwards leaves an empty redo
stack, so a following Redo is a no-op (only the status line changes). -/
theorem c2_undo_redo (ms : List (Editor → Editor)) (S0 : Editor)
    (hpres : ∀ m ∈ ms, StackPres m) :
    snapshot (undoN ms.length (runCmds ms S0)) = snapshot S0 ∧
    snapshot (redoN ms.length (undoN ms.length (runCmds ms S0))) =
      snapshot (runCmds ms S0) ∧
    (∀ m, StackPres m → ∀ u : Editor,
      redo (doCmd m u) = { doCmd m u with status := "Nothing to redo" }) := by
  cases ms with
  | nil =>
    exact ⟨rfl, rfl, fun m hm u => (redo_after_cmd m hm u).2⟩
  | cons m0 ms' =>
    obtain ⟨hu, hr⟩ := runCmds_stack (m0 :: ms') S0 hpres
    have hrE : (runCmds (m0 :: ms') S0).redo_stack = [] := by
      rcases hr with h | h
      · simp at h
      · exact h
    have hSA : snapsAlong (m0 :: ms') S0 =
        snapsAlong ms' (doCmd m0 S0) ++ [snapshot S0] := rfl
    have hlenL : (snapsAlong ms' (doCmd m0 S0)).length = ms'.length :=
      snapsAlong_length ms' (doCmd m0 S0)
    have hstack : (runCmds (m0 :: ms') S0).undo_stack =
        snapsAlong ms' (doCmd m0 S0) ++ snapshot S0 :: S0.undo_stack := by
      rw [hu, hSA]
      simp
    have hfocus : ∀ x ∈ snapsAlong ms' (doCmd m0 S0),
        x.focus ≠ EditorFocus.Editing :=
      fun x hx => snapsAlong_focus ms' (doCmd m0 S0) x hx
    have hNN : (m0 :: ms').length = (snapsAlong ms' (doCmd m0 S0)).length + 1 := by
      simp [hlenL]
    have hUn : undoN ((m0 :: ms').length) (runCmds (m0 :: ms') S0) =
        afterUndo (runCmds (m0 :: ms') S0) (snapshot S0) S0.undo_stack
          ((snapsAlong ms' (doCmd m0 S0)).reverse ++
            snapshot (runCmds (m0 :: ms') S0) ::
              (runCmds (m0 :: ms') S0).redo_stack) := by
      rw [hNN]
      exact undoN_stack (snapsAlong ms' (doCmd m0 S0)) (snapshot S0) S0.undo_stack
        (runCmds (m0 :: ms') S0) hstack hfocus (snapshotFocus_ne_editing _)
    have hU1 : snapshot (undoN ((m0 :: ms').length) (runCmds (m0 :: ms') S0)) =
        snapshot S0 := by
      rw [hUn]
      exact snapshot_afterUndo _ _ _ _ (snapshotFocus_ne_editing _)
    refine ⟨hU1, ?_, fun m hm u => (redo_after_cmd m hm u).2⟩
    set u := undoN ((m0 :: ms').length) (runCmds (m0 :: ms') S0) with hu_def
    have hredoStack : u.redo_stack =
        (snapsAlong ms' (doCmd m0 S0)).reverse ++
          snapshot (runCmds (m0 :: ms') S0) :: [] := by
      rw [hUn, hrE]
      rfl
    have hNN2 : (m0 :: ms').length =
        ((snapsAlong ms' (doCmd m0 S0)).reverse).length + 1 := by
      simp [hlenL]
    have hRn := redoN_stack ((snapsAlong ms' (doCmd m0 S0)).reverse)
      (snapshot (runCmds (m0 :: ms') S0)) [] u hredoStack
      (fun x hx => hfocus x (List.mem_reverse.mp hx))
      (snapshotFocus_ne_editing _)
    rw [hNN2, hRn]
    exact snapshot_afterRedo _ _ _ _ (snapshotFocus_ne_editing _)

def c2Cmd : Editor → Editor :=
  fun e => { e with types := [⟨"X", [⟨FieldKey.element "nominal" 0, "9"⟩]⟩],
                    status := "edited" }

def c2Cmds : List (Editor → Editor) := [c2Cmd]

/-- Witness for C2: one concrete mutating command from the fresh editor. -/
theorem c2_undo_redo_witness :
    snapshot (undoN c2Cmds.length (runCmds c2Cmds Editor.new)) =
      snapshot Editor.new ∧
    snapshot (redoN c2Cmds.length (undoN c2Cmds.length
      (runCmds c2Cmds Editor.new))) = snapshot (runCmds c2Cmds Editor.new) ∧
    (∀ m, StackPres m → ∀ u : Editor,
      redo (doCmd m u) = { doCmd m u with status := "Nothing to redo" }) :=
  c2_undo_redo c2Cmds Editor.new (by
    intro m hm
    simp only [c2Cmds, List.mem_singleton] at hm
    subst hm
    intro e
    exact ⟨rfl, rfl⟩)

/-! ## C9: the selection-bounds invariant -/

def fieldsAt (ts : List TypeEntry) (st : Nat) : List Field :=
  ((ts[st]?).map TypeEntry.fields).getD []

/-- Invariant 3 of the spec for a given document and selection. -/
def selOk (ts : List TypeEntry) (st sf : Nat) : Prop :=
  (ts = [] ∨ st < ts.length) ∧
    (fieldsAt ts st = [] ∨ sf < (fieldsAt ts st).length)

def coreInv (e : Editor) : Prop := selOk e.types e.selected_type e.selected_field

def snapOk (s : EditorSnapshot) : Prop := selOk s.types s.selected_type s.selected_field

/-- The invariant, strengthened over the two history stacks so that
undo/redo restores invariant-satisfying states. -/
def editorInv (e : Editor) : Prop :=
  coreInv e ∧ (∀ s ∈ e.undo_stack, snapOk s) ∧ (∀ s ∈ e.redo_stack, snapOk s)

instance (ts : List TypeEntry) (st sf : Nat) : Decidable (selOk ts st sf) := by
  unfold selOk
  infer_instance

instance (e : Editor) : Decidable (coreInv e) := by
  unfold coreInv
  infer_instance

instance (s : EditorSnapshot) : Decidable (snapOk s) := by
  unfold snapOk
  infer_instance

instance (e : Editor) : Decidable (editorInv e) := by
  unfold editorInv
  infer_instance

theorem selOk_sf_zero (ts : List TypeEntry) (st : Nat)
    (h : ts = [] ∨ st < ts.length) : selOk ts st 0 := by
  refine ⟨h, ?_⟩
  by_cases hf : fieldsAt ts st = []
  · exact Or.inl hf
  · exact Or.inr (List.length_pos.mpr hf)

/-- Invariance is insensitive to everything but the document, the selection
and the stacks. -/
theorem editorInv_of_core (e e' : Editor) (h : editorInv e)
    (ht : e'.types = e.types) (hst : e'.selected_type = e.selected_type)
    (hsf : e'.selected_field = e.selected_field)
    (hus : e'.undo_stack = e.undo_stack) (hrs : e'.redo_stack = e.redo_stack) :
    editorInv e' := by
  refine ⟨?_, ?_, ?_⟩
  · unfold coreInv
    rw [ht, hst, hsf]
    exact h.1
  · rw [hus]
    exact h.2.1
  · rw [hrs]
    exact h.2.2

theorem push_undo_inv (e : Editor) (h : editorInv e) : editorInv (push_undo e) := by
  refine ⟨h.1, ?_, ?_⟩
  · intro s hs
    rcases List.mem_cons.mp hs with h1 | h2
    · subst h1
      exact h.1
    · exact h.2.1 s h2
  · intro s hs
    exact absurd hs (List.not_mem_nil s)

theorem current_fields_len_eq (e : Editor) :
    current_fields_len e = (fieldsAt e.types e.selected_type).length := by
  unfold current_fields_len fieldsAt
  cases e.types[e.selected_type]? <;> rfl

theorem fieldsAt_set_self (ts : List TypeEntry) (st : Nat) (t' : TypeEntry)
    (hlt : st < ts.length) : fieldsAt (ts.set st t') st = t'.fields := by
  unfold fieldsAt
  rw [List.getElem?_set_self hlt]
  rfl

theorem fieldsAt_set_ne (ts : List TypeEntry) (i st : Nat) (t' : TypeEntry)
    (hne : i ≠ st) : fieldsAt (ts.set i t') st = fieldsAt ts st := by
  unfold fieldsAt
  rw [List.getElem?_set_ne hne]

theorem calc_bounds (s : Nat) (n len : Int) (hlen : 0 < len) :
    0 ≤ calculate_move_idx s n len ∧ calculate_move_idx s n len < len := by
  unfold calculate_move_idx
  split_ifs <;> omega

theorem move_selection_inv (delta : Int) (e : Editor) (h : editorInv e) :
    editorInv (move_selection delta e) := by
  unfold move_selection
  dsimp only
  split
  · -- TypeList
    split
    · exact h
    · rename_i hne
      have hlen : 0 < (e.types.length : Int) := by
        have := List.length_pos.mpr hne
        omega
      have hb := calc_bounds e.selected_type ((e.selected_type : Int) + delta)
        e.types.length hlen
      have hnewlt : (calculate_move_idx e.selected_type ((e.selected_type : Int) + delta)
          (e.types.length : Int)).toNat < e.types.length := by omega
      exact ⟨selOk_sf_zero e.types _ (Or.inr hnewlt), h.2.1, h.2.2⟩
  · -- FieldList
    split
    · exact h
    · rename_i hne
      have hlen : 0 < ((current_fields_len e : Int)) := by
        rcases Nat.eq_zero_or_pos (current_fields_len e) with h0 | h0
        · exact absurd (by exact_mod_cast h0) hne
        · omega
      have hb := calc_bounds e.selected_field ((e.selected_field : Int) + delta)
        (current_fields_len e) hlen
      rw [current_fields_len_eq] at hb
      have hnewlt : (calculate_move_idx e.selected_field ((e.selected_field : Int) + delta)
          (current_fields_len e : Int)).toNat <
          (fieldsAt e.types e.selected_type).length := by
        rw [current_fields_len_eq]
        omega
      exact ⟨⟨h.1.1, Or.inr hnewlt⟩, h.2.1, h.2.2⟩
  · exact h

theorem begin_editing_inv (e : Editor) (h : editorInv e) :
    editorInv (begin_editing e) := by
  unfold begin_editing
  split
  · split
    · exact editorInv_of_core e _ h rfl rfl rfl rfl rfl
    · exact h
  · split
    · exact editorInv_of_core e _ h rfl rfl rfl rfl rfl
    · exact h
  · exact h

theorem stop_editing_inv (e : Editor) (h : editorInv e) :
    editorInv (stop_editing e) := by
  exact editorInv_of_core e _ h rfl rfl rfl rfl rfl

theorem toggle_type_selection_inv (e : Editor) (h : editorInv e) :
    editorInv (toggle_type_selection e) := by
  unfold toggle_type_selection
  dsimp only
  split_ifs <;> first
    | exact h
    | exact editorInv_of_core e _ h rfl rfl rfl rfl rfl

theorem clear_multi_select_inv (e : Editor) (h : editorInv e) :
    editorInv (clear_multi_select e) := by
  unfold clear_multi_select
  split
  · exact editorInv_of_core e _ h rfl rfl rfl rfl rfl
  · exact h

theorem begin_multi_add_field_inv (e : Editor) (h : editorInv e) :
    editorInv (begin_multi_add_field e) := by
  unfold begin_multi_add_field
  split
  · exact h
  · split
    · exact editorInv_of_core e _ h rfl rfl rfl rfl rfl
    · exact editorInv_of_core e _ h rfl rfl rfl rfl rfl

theorem begin_multi_add_attribute_inv (e : Editor) (h : editorInv e) :
    editorInv (begin_multi_add_attribute e) := by
  unfold begin_multi_add_attribute
  split
  · exact h
  · split
    · exact editorInv_of_core e _ h rfl rfl rfl rfl rfl
    · split
      · exact h
      · exact editorInv_of_core e _ h rfl rfl rfl rfl rfl

theorem undo_inv (e : Editor) (h : editorInv e) : editorInv (undo e) := by
  cases hstack : e.undo_stack with
  | nil =>
    have heq : undo e = { e with status := "Nothing to undo" } := by
      simp [undo, hstack]
    rw [heq]
    exact editorInv_of_core e _ h rfl rfl rfl rfl rfl
  | cons s rest =>
    rw [undo_cons e s rest hstack]
    have hsOk : snapOk s := h.2.1 s (by rw [hstack]; exact List.mem_cons_self _ _)
    refine ⟨hsOk, ?_, ?_⟩
    · intro x hx
      exact h.2.1 x (by rw [hstack]; exact List.mem_cons_of_mem _ hx)
    · intro x hx
      rcases List.mem_cons.mp hx with h1 | h2
      · subst h1
        exact h.1
      · exact h.2.2 x h2

theorem redo_inv (e : Editor) (h : editorInv e) : editorInv (redo e) := by
  cases hstack : e.redo_stack with
  | nil =>
    have heq : redo e = { e with status := "Nothing to redo" } := by
      simp [redo, hstack]
    rw [heq]
    exact editorInv_of_core e _ h rfl rfl rfl rfl rfl
  | cons s rest =>
    rw [redo_cons e s rest hstack]
    have hsOk : snapOk s := h.2.2 s (by rw [hstack]; exact List.mem_cons_self _ _)
    refine ⟨hsOk, ?_, ?_⟩
    · intro x hx
      rcases List.mem_cons.mp hx with h1 | h2
      · subst h1
        exact h.1
      · exact h.2.1 x h2
    · intro x hx
      exact h.2.2 x (by rw [hstack]; exact List.mem_cons_of_mem _ hx)

theorem save_inv (fs : FileSys) (e : Editor) (h : editorInv e) :
    editorInv (save fs e).1 := by
  unfold save
  split
  · exact editorInv_of_core e _ h rfl rfl rfl rfl rfl
  · dsimp only
    split
    · split
      · exact editorInv_of_core e _ h rfl rfl rfl rfl rfl
      · exact h
    · split
      · split
        · exact editorInv_of_core e _ h rfl rfl rfl rfl rfl
        · exact h
      · exact h

theorem selOk_iff_len (ts : List TypeEntry) (st sf : Nat) :
    selOk ts st sf ↔ ((ts.length = 0 ∨ st < ts.length) ∧
      ((fieldsAt ts st).length = 0 ∨ sf < (fieldsAt ts st).length)) := by
  unfold selOk
  rw [← List.length_eq_zero, ← List.length_eq_zero]

theorem setFieldAt_length (ts : List TypeEntry) (st sf : Nat) (g : Field → Field) :
    (setFieldAt ts st sf g).length = ts.length := by
  unfold setFieldAt
  split
  · split
    · simp
    · rfl
  · rfl

theorem fieldsAt_eq_of_getElem (ts : List TypeEntry) (st : Nat) (t : TypeEntry)
    (hty : ts[st]? = some t) : fieldsAt ts st = t.fields := by
  unfold fieldsAt
  rw [hty]
  rfl

theorem setFieldAt_fieldsAt_length (ts : List TypeEntry) (st sf st' : Nat)
    (g : Field → Field) :
    (fieldsAt (setFieldAt ts st sf g) st').length = (fieldsAt ts st').length := by
  unfold setFieldAt
  split
  · rename_i t hty
    split
    · rename_i f hf
      by_cases hst : st = st'
      · subst hst
        rw [fieldsAt_set_self _ _ _ (lt_of_getElem?_eq_some hty),
          fieldsAt_eq_of_getElem ts st t hty]
        simp
      · rw [fieldsAt_set_ne _ _ _ _ hst]
    · rfl
  · rfl

theorem selOk_setFieldAt (ts : List TypeEntry) (st sf st' sf' : Nat) (g : Field → Field)
    (h : selOk ts st' sf') : selOk (setFieldAt ts st sf g) st' sf' := by
  rw [selOk_iff_len] at h ⊢
  rw [setFieldAt_length, setFieldAt_fieldsAt_length]
  exact h

theorem updateType_rename_fieldsAt (ts : List TypeEntry) (st st' : Nat) (v : String) :
    fieldsAt (updateType ts st (fun ty => { ty with name := v })) st' =
      fieldsAt ts st' := by
  unfold updateType
  split
  · rename_i t hty
    by_cases hst : st = st'
    · subst hst
      rw [fieldsAt_set_self _ _ _ (lt_of_getElem?_eq_some hty),
        fieldsAt_eq_of_getElem ts st t hty]
    · rw [fieldsAt_set_ne _ _ _ _ hst]
  · rfl

theorem updateType_length (ts : List TypeEntry) (st : Nat) (f : TypeEntry → TypeEntry) :
    (updateType ts st f).length = ts.length := by
  unfold updateType
  split
  · simp
  · rfl

theorem selOk_updateType_rename (ts : List TypeEntry) (st' sf' st : Nat) (v : String)
    (h : selOk ts st' sf') :
    selOk (updateType ts st (fun ty => { ty with name := v })) st' sf' := by
  rw [selOk_iff_len] at h ⊢
  rw [updateType_length, updateType_rename_fieldsAt]
  exact h

theorem selOk_append_at (ts : List TypeEntry) (st : Nat) (t' : TypeEntry)
    (hlt : st < ts.length) (hpos : t'.fields ≠ []) :
    selOk (ts.set st t') st (t'.fields.length - 1) := by
  constructor
  · right
    simpa using hlt
  · rw [fieldsAt_set_self _ _ _ hlt]
    right
    have := List.length_pos.mpr hpos
    omega

theorem addLoop_inv (kind : PendingAddKind) (F V : String) (selT : Nat) :
    ∀ (idxs : List Nat) (ts : List TypeEntry) (sf upd : Nat),
      selOk ts selT sf →
      selOk (addLoop kind F V selT idxs ts sf upd).1 selT
        (addLoop kind F V selT idxs ts sf upd).2.1 := by
  intro idxs
  induction idxs with
  | nil => intro ts sf upd h; exact h
  | cons idx rest ih =>
    intro ts sf upd h
    cases hty : ts[idx]? with
    | none =>
      have hstep : addLoop kind F V selT (idx :: rest) ts sf upd =
          addLoop kind F V selT rest ts sf upd := by
        simp [addLoop, hty]
      rw [hstep]
      exact ih ts sf upd h
    | some ty =>
      have hlt : idx < ts.length := lt_of_getElem?_eq_some hty
      have key : ∀ fld : Field,
          selOk (ts.set idx { ty with fields := ty.fields ++ [fld] }) selT
            (if idx = selT then (ty.fields ++ [fld]).length - 1 else sf) := by
        intro fld
        constructor
        · right
          rw [List.length_set]
          rcases h.1 with hnil | hlt'
          · rw [hnil] at hty; simp at hty
          · exact hlt'
        · by_cases hsel : idx = selT
          · subst hsel
            rw [if_pos rfl, fieldsAt_set_self _ _ _ hlt]
            refine Or.inr ?_
            dsimp only
            have hpos : 0 < (ty.fields ++ [fld]).length := by simp
            omega
          · rw [if_neg hsel, fieldsAt_set_ne _ _ _ _ hsel]
            exact h.2
      cases kind with
      | fieldAdd =>
        have hstep : addLoop PendingAddKind.fieldAdd F V selT (idx :: rest) ts sf upd =
            addLoop PendingAddKind.fieldAdd F V selT rest
              (ts.set idx { ty with fields := ty.fields ++
                [(⟨FieldKey.element F (countElem ty.fields F), V⟩ : Field)] })
              (if idx = selT then (ty.fields ++
                [(⟨FieldKey.element F (countElem ty.fields F), V⟩ : Field)]).length - 1
               else sf) (upd + 1) := by
          simp [addLoop, hty]
        rw [hstep]
        exact ih _ _ _ (key _)
      | attrAdd el ix =>
        have hstep : addLoop (PendingAddKind.attrAdd el ix) F V selT (idx :: rest) ts sf upd =
            addLoop (PendingAddKind.attrAdd el ix) F V selT rest
              (ts.set idx { ty with fields := ty.fields ++
                [(⟨FieldKey.attrib el ix F, V⟩ : Field)] })
              (if idx = selT then (ty.fields ++
                [(⟨FieldKey.attrib el ix F, V⟩ : Field)]).length - 1
               else sf) (upd + 1) := by
          simp [addLoop, hty]
        rw [hstep]
        exact ih _ _ _ (key _)

theorem apply_pending_add_inv (e : Editor) (h : editorInv e) :
    editorInv (apply_pending_add e).1 := by
  unfold apply_pending_add
  dsimp only
  split
  · exact h
  · split
    · exact editorInv_of_core e _ h rfl rfl rfl rfl rfl
    · split
      · exact editorInv_of_core e _ h rfl rfl rfl rfl rfl
      · have h1 := push_undo_inv e h
        exact ⟨addLoop_inv _ _ _ _ _ _ _ _ h.1, h1.2.1, h1.2.2⟩
    · exact h

theorem apply_input_inv (e : Editor) (h : editorInv e) :
    editorInv (apply_input e).1 := by
  unfold apply_input
  dsimp only
  split
  · exact apply_pending_add_inv e h
  · split
    · -- TypeName
      split
      · have h1 := push_undo_inv e h
        exact ⟨selOk_updateType_rename _ _ _ _ _ h.1, h1.2.1, h1.2.2⟩
      · exact h
    · -- FieldName
      split
      · have h1 := push_undo_inv e h
        split
        · exact ⟨selOk_setFieldAt _ _ _ _ _ _ h.1, h1.2.1, h1.2.2⟩
        · exact ⟨selOk_setFieldAt _ _ _ _ _ _ h.1, h1.2.1, h1.2.2⟩
      · exact h
    · -- FieldValue
      split
      · have h1 := push_undo_inv e h
        exact ⟨selOk_setFieldAt _ _ _ _ _ _ h.1, h1.2.1, h1.2.2⟩
      · exact h
    · exact h

theorem add_inv (e : Editor) (h : editorInv e) : editorInv (add e) := by
  unfold add
  dsimp only
  split
  · -- TypeList
    split
    · exact editorInv_of_core e _ h rfl rfl rfl rfl rfl
    · have h1 := push_undo_inv e h
      refine ⟨selOk_sf_zero _ _ (Or.inr ?_), h1.2.1, h1.2.2⟩
      rw [List.length_append]
      simp only [List.length_cons, List.length_nil]
      omega
  · -- FieldList
    split
    · exact begin_multi_add_field_inv e h
    · split
      · exact h
      · have h1 := push_undo_inv e h
        split
        · rename_i ty hty
          exact ⟨selOk_append_at _ _ _ (lt_of_getElem?_eq_some hty) (by simp),
            h1.2.1, h1.2.2⟩
        · exact ⟨h.1, h1.2.1, h1.2.2⟩
  · exact h

/-- The clamp-after-removal pattern shared by `delete` (FieldList) and
`delFieldLoop`: replacing the selected type's field list and re-clamping
`selected_field` restores the bound. -/
theorem selOk_set_clamp (ts : List TypeEntry) (st sf : Nat) (t' : TypeEntry)
    (hlt : st < ts.length) :
    selOk (ts.set st t') st
      (if sf ≥ t'.fields.length ∧ t'.fields ≠ [] then t'.fields.length - 1
       else if t'.fields = [] then 0 else sf) := by
  constructor
  · right
    simpa using hlt
  · rw [fieldsAt_set_self _ _ _ hlt]
    split_ifs with hge hemp
    · right
      have h2 := List.length_pos.mpr hge.2
      omega
    · left
      exact hemp
    · right
      rcases Nat.lt_or_ge sf t'.fields.length with hlt2 | hge2
      · exact hlt2
      · exact absurd ⟨hge2, hemp⟩ hge

theorem selOk_set_other (ts : List TypeEntry) (idx st sf : Nat) (t' : TypeEntry)
    (hne : idx ≠ st) (h : selOk ts st sf) : selOk (ts.set idx t') st sf := by
  constructor
  · rcases h.1 with hnil | hlt
    · left
      rw [hnil]
      rfl
    · right
      rw [List.length_set]
      exact hlt
  · rw [fieldsAt_set_ne _ _ _ _ hne]
    exact h.2

theorem add_attribute_inv (e : Editor) (h : editorInv e) :
    editorInv (add_attribute e) := by
  unfold add_attribute
  dsimp only
  split
  · split
    · exact begin_multi_add_attribute_inv e h
    · exact editorInv_of_core e _ h rfl rfl rfl rfl rfl
  · split
    · exact h
    · split
      · exact h
      · split
        · rename_i ty hty
          have h1 := push_undo_inv e h
          exact ⟨selOk_append_at _ _ _ (lt_of_getElem?_eq_some hty) (by simp),
            h1.2.1, h1.2.2⟩
        · exact push_undo_inv e h

theorem copy_inv (e : Editor) (h : editorInv e) : editorInv (copy e) := by
  unfold copy
  dsimp only
  split
  · -- TypeList
    split
    · have h1 := push_undo_inv e h
      refine ⟨selOk_sf_zero _ _ (Or.inr ?_), h1.2.1, h1.2.2⟩
      simp only [List.length_append, List.length_cons, List.length_nil]
      omega
    · exact h
  · -- FieldList
    split
    · split
      · rename_i ty hty
        have h1 := push_undo_inv e h
        exact ⟨selOk_append_at _ _ _ (lt_of_getElem?_eq_some hty) (by simp),
          h1.2.1, h1.2.2⟩
      · exact push_undo_inv e h
    · exact h
  · exact h

theorem delete_inv (e : Editor) (h : editorInv e) : editorInv (delete e) := by
  unfold delete
  split
  · -- TypeList
    dsimp only
    split
    · have h1 := push_undo_inv e h
      refine ⟨selOk_sf_zero _ _ ?_, h1.2.1, h1.2.2⟩
      split_ifs with hge hemp
      · right
        have h2 := List.length_pos.mpr hge.2
        dsimp only
        omega
      · left
        exact hemp
      · right
        rcases Nat.lt_or_ge e.selected_type
            (e.types.eraseIdx e.selected_type).length with hlt2 | hge2
        · exact hlt2
        · exact absurd ⟨hge2, hemp⟩ hge
    · exact h
  · -- FieldList
    dsimp only
    split
    · split
      · rename_i ty hty
        have h1 := push_undo_inv e h
        exact ⟨selOk_set_clamp _ _ _ _ (lt_of_getElem?_eq_some hty), h1.2.1, h1.2.2⟩
      · exact push_undo_inv e h
    · exact h
  · exact h

theorem delete_selected_types_inv (e : Editor) (h : editorInv e) :
    editorInv (delete_selected_types e) := by
  unfold delete_selected_types
  dsimp only
  split
  · exact h
  · split
    · exact h
    · have h1 := push_undo_inv e h
      refine ⟨selOk_sf_zero _ _ ?_, h1.2.1, h1.2.2⟩
      split_ifs with hemp hge
      · left
        exact hemp
      · right
        have h2 := List.length_pos.mpr hemp
        dsimp only
        omega
      · right
        exact Nat.lt_of_not_le hge

theorem delFieldLoop_inv (key : FieldKey) (selT : Nat) :
    ∀ (idxs : List Nat) (ts : List TypeEntry) (sf upd : Nat),
      selOk ts selT sf →
      selOk (delFieldLoop key selT idxs ts sf upd).1 selT
        (delFieldLoop key selT idxs ts sf upd).2.1 := by
  intro idxs
  induction idxs with
  | nil => intro ts sf upd h; exact h
  | cons idx rest ih =>
    intro ts sf upd h
    cases hty : ts[idx]? with
    | none =>
      simp only [delFieldLoop, hty]
      exact ih ts sf upd h
    | some ty =>
      cases hpos : ty.fields.findIdx? (fun f => f.key == key) with
      | none =>
        simp only [delFieldLoop, hty, hpos]
        exact ih ts sf upd h
      | some pos =>
        have hlt : idx < ts.length := lt_of_getElem?_eq_some hty
        simp only [delFieldLoop, hty, hpos]
        apply ih
        by_cases hsel : idx = selT
        · subst hsel
          rw [if_pos rfl]
          exact selOk_set_clamp _ _ _ _ hlt
        · rw [if_neg hsel]
          exact selOk_set_other _ _ _ _ _ hsel h

theorem delete_field_multi_inv (e : Editor) (h : editorInv e) :
    editorInv (delete_field_multi e) := by
  unfold delete_field_multi
  dsimp only
  split
  · exact h
  · split
    · exact h
    · have h1 := push_undo_inv e h
      exact ⟨delFieldLoop_inv _ _ _ _ _ _ h.1, h1.2.1, h1.2.2⟩

theorem delete_multi_inv (e : Editor) (h : editorInv e) :
    editorInv (delete_multi e) := by
  unfold delete_multi
  split
  · exact delete_selected_types_inv e h
  · exact delete_field_multi_inv e h
  · exact h

/-- C9: the selection-bounds invariant (`selected_type` within `types` or the
document empty, and `selected_field` within the selected type's fields or that
field list empty) is preserved by every action `handle_action` handles,
strengthened over both history stacks so that undo/redo restores only
invariant-satisfying states. -/
theorem c9_invariant_preserved (fs : FileSys) (a : Action) (e : Editor)
    (h : editorInv e) : editorInv (handle_action fs a e).1 := by
  unfold handle_action
  split
  · -- Editing focus
    cases a <;>
      first
        | exact editorInv_of_core e _ h rfl rfl rfl rfl rfl
        | exact h
        | (dsimp only
           split
           · exact apply_input_inv e h
           · exact stop_editing_inv _ (apply_input_inv e h))
  all_goals
    cases a <;>
      first
        | exact h
        | exact move_selection_inv _ e h
        | exact editorInv_of_core e _ h rfl rfl rfl rfl rfl
        | exact add_inv e h
        | exact add_attribute_inv e h
        | exact undo_inv e h
        | exact redo_inv e h
        | exact save_inv fs e h
        | exact toggle_type_selection_inv e h
        | exact clear_multi_select_inv e h
        | (dsimp only
           split <;>
             first
               | exact editorInv_of_core e _ h rfl rfl rfl rfl rfl
               | exact h
               | exact begin_editing_inv e h
               | exact copy_inv e h
               | exact delete_multi_inv e h
               | exact delete_inv e h)

def c9Fs : FileSys := ⟨fun _ => Except.ok "", fun _ => Except.ok (), true⟩

def c9Editor : Editor :=
  { Editor.new with
      types := [⟨"AKM", [⟨FieldKey.element "nominal" 0, "10"⟩]⟩, ⟨"M4A1", []⟩],
      selected_type := 1, focus := EditorFocus.TypeList }

theorem c9_invariant_preserved_witness :
    editorInv c9Editor ∧ editorInv (handle_action c9Fs Action.Delete c9Editor).1 :=
  ⟨by decide, c9_invariant_preserved c9Fs Action.Delete c9Editor (by decide)⟩

end LootEditor
